import Mathlib

/-!
# QCommandEdit: a command line editor with history and completion

A shallow embedding of `qcommandtokenizer.cpp`, `qcommandedit.cpp` and the
handlers of `mainwindow.cpp`, followed by theorems about them.

Modelling conventions.

* `QString` is a list of characters. `left n` is `List.take n`, `mid n` is
  `List.drop n`, `startsWith` is the list prefix test, `isEmpty` is `= []`.
* The C++ `int` values that can be negative (`index_`, `delta`, the argument of
  `getTokenAtCharPos`) are `Int`. Offsets that the code only ever builds from
  loop counters and lengths (`start_`, `end_`, cursor and selection positions)
  are `Nat`. No value exceeds the length of a string or list by more than one,
  so 32 bit overflow is out of reach and is not modelled.
* The `QLineEdit` base class is the text buffer: text, cursor position and the
  selected range, with the documented behaviour of `setText`,
  `setCursorPosition` and `setSelection`, including the change notifications
  that the constructor of `QCommandEdit` connects to its own slots. The
  `maxLength` truncation of `QLineEdit` is not modelled.
* Signals sent to the host (`execute`, `askCompletion`, `escape`) are appended
  to the `emitted` log. Painting, tool tips and key event decoding are left out.
-/

namespace QCommandEditModel

/-- A `QString`, as the list of its characters. -/
abbrev QString := List Char

/-- Embeds `QString::startsWith`. -/
def startsWith (s p : QString) : Bool := p.isPrefixOf s

/-! ## qcommandtokenizer.cpp -/

/-- Embeds `QCommandTokenizer::Token`. -/
structure Token where
  token_ : QString
  type_ : Int
  start_ : Nat
  end_ : Nat
deriving DecidableEq, Repr

/-- Embeds `Token::overlaps`: `start_ <= index && index <= end_`. -/
def Token.overlaps (t : Token) (index : Int) : Bool :=
  decide ((t.start_ : Int) ≤ index) && decide (index ≤ (t.end_ : Int))

/-- Embeds `QCommandTokenizer`: the command and the tokens found in it. -/
structure QCommandTokenizer where
  command_ : QString
  tokens_ : List Token
deriving DecidableEq, Repr

/-- Embeds `QCommandTokenizer::clear`. -/
def QCommandTokenizer.clear (_t : QCommandTokenizer) : QCommandTokenizer :=
  { command_ := [], tokens_ := [] }

/-- Embeds `QSimpleCommandTokenizer::isSeparator`. -/
def isSeparator (c : Char) : Bool :=
  c == ' ' || c == '\t' || c == '\n' || c == '\r'

/-- One pass through the body of the `for` loop of
`QSimpleCommandTokenizer::tokenize`, at loop counter `i`, on the pair of the
local `cur` and the member `tokens_`. -/
def tokenizeStep (command : QString) (st : Token × List Token) (i : Nat) :
    Token × List Token :=
  let n := command.length
  let c : Char := if i < n then command.getD i ' ' else ' '
  if i = n ∨ isSeparator c = true then
    let st1 : Token × List Token :=
      if st.1.token_ ≠ [] then
        let cur := { st.1 with end_ := i }
        ({ cur with token_ := [] }, st.2 ++ [cur])
      else st
    ({ st1.1 with start_ := i + 1, end_ := i + 1 }, st1.2)
  else
    ({ st.1 with token_ := st.1.token_ ++ [c] }, st.2)

/-- Embeds `QSimpleCommandTokenizer::tokenize`: the loop runs `i` over `0, ..., n`. -/
def QCommandTokenizer.tokenize (t : QCommandTokenizer) : QCommandTokenizer :=
  let cur : Token := { token_ := [], type_ := 0, start_ := 0, end_ := 0 }
  { t with
    tokens_ :=
      ((List.range (t.command_.length + 1)).foldl (tokenizeStep t.command_)
        (cur, t.tokens_)).2 }

/-- Embeds `QCommandTokenizer::setCommand`. -/
def QCommandTokenizer.setCommand (t : QCommandTokenizer) (cmd : QString) :
    QCommandTokenizer :=
  let t := t.clear
  let t := { t with command_ := cmd }
  t.tokenize

/-- Embeds `QCommandTokenizer::getTokens`. -/
def QCommandTokenizer.getTokens (t : QCommandTokenizer) : List Token :=
  t.tokens_.foldl (fun tokens tok => tokens ++ [tok]) []

/-- Embeds `QCommandTokenizer::getTokenAtCharPos`; a `throw` is an `Except.error`
carrying the thrown message. -/
def QCommandTokenizer.getTokenAtCharPos (t : QCommandTokenizer) (index : Int) :
    Except String Token :=
  if index < 0 ∨ index > (t.command_.length : Int) then
    .error "Character index out of bounds"
  else
    match t.tokens_.find? (fun tok => tok.overlaps index) with
    | some tok => .ok tok
    | none => .error "No token"

/-! ## qcommandedit.cpp -/

/-- The signals of `QCommandEdit` that the host listens to. -/
inductive HostSignal where
  | execute (cmd : QString)
  | askCompletion (cmd : QString) (cursorPos : Nat)
  | escape
deriving DecidableEq, Repr

/-- Embeds `QCommandEdit::HistoryState`. -/
structure HistoryState where
  history_ : List QString
  index_ : Int
  prefixFilter_ : QString
deriving DecidableEq, Repr

/-- Embeds `QCommandEdit::CompletionState`. -/
structure CompletionState where
  completion_ : List QString
  requested_ : Bool
  index_ : Int
deriving DecidableEq, Repr

/-- Embeds `QCommandEdit::HistoryState::reset`. -/
def HistoryState.reset (h : HistoryState) : HistoryState :=
  { h with index_ := -1, prefixFilter_ := [] }

/-- Embeds `QCommandEdit::CompletionState::reset`. -/
def CompletionState.reset (_c : CompletionState) : CompletionState :=
  { completion_ := [], requested_ := false, index_ := -1 }

/-- The widget. The first five fields are the `QLineEdit` base object: the
text, the cursor, the selected range `[selStart, selEnd)` (both `0` when
nothing is selected), and the `blockSignals` flag. `emitted` logs the signals
sent to the host, oldest first; `pendingMoveCursorToEnd` counts the
`QTimer::singleShot(0, ...)` callbacks that have been scheduled. -/
structure QCommandEdit where
  text : QString
  cursorPosition : Nat
  selStart : Nat
  selEnd : Nat
  signalsBlocked : Bool
  historyState_ : HistoryState
  completionState_ : CompletionState
  showMatchingHistory_ : Bool
  autoAcceptLongestCommonCompletionPrefix_ : Bool
  ghostSuffix_ : QString
  emitted : List HostSignal
  pendingMoveCursorToEnd : Nat
deriving DecidableEq, Repr

namespace QCommandEdit

/-- State built by the constructor: empty line, both models reset. -/
def init : QCommandEdit :=
  { text := [], cursorPosition := 0, selStart := 0, selEnd := 0,
    signalsBlocked := false,
    historyState_ := { history_ := [], index_ := -1, prefixFilter_ := [] },
    completionState_ := { completion_ := [], requested_ := false, index_ := -1 },
    showMatchingHistory_ := false,
    autoAcceptLongestCommonCompletionPrefix_ := true,
    ghostSuffix_ := [], emitted := [], pendingMoveCursorToEnd := 0 }

/-- Models `QLineEdit::hasSelectedText`. -/
def hasSelectedText (w : QCommandEdit) : Bool := decide (w.selStart < w.selEnd)

/-- Models `QLineEdit::selectedText`. -/
def selectedText (w : QCommandEdit) : QString :=
  if w.hasSelectedText then (w.text.drop w.selStart).take (w.selEnd - w.selStart) else []

/-- Models `QLineEdit::selectionStart`: `-1` when nothing is selected. -/
def selectionStart (w : QCommandEdit) : Int :=
  if w.hasSelectedText then (w.selStart : Int) else -1

/-- Embeds `QCommandEdit::onSelectionChanged`. -/
def onSelectionChanged (w : QCommandEdit) : QCommandEdit :=
  { w with completionState_ := w.completionState_.reset }

/-- Embeds `QCommandEdit::onCursorPositionChanged`. -/
def onCursorPositionChanged (w : QCommandEdit) (_old _now : Nat) : QCommandEdit :=
  { w with completionState_ := w.completionState_.reset }

/-- Delivery of the `selectionChanged` and `cursorPositionChanged` signals of
the line edit to the slots connected in the constructor, after a buffer
operation: nothing is delivered while signals are blocked, `selectionChanged`
when the operation touched the selection, `cursorPositionChanged` when the
cursor is no longer at `old`. -/
def deliverBufferSignals (selChanged : Bool) (old : Nat) (w : QCommandEdit) : QCommandEdit :=
  if w.signalsBlocked then w
  else
    let w := if selChanged then w.onSelectionChanged else w
    if old ≠ w.cursorPosition then w.onCursorPositionChanged old w.cursorPosition else w

/-- Models `QLineEdit::setText`: replaces the text, drops the selection and puts the
cursor at the end. -/
def setText (w : QCommandEdit) (t : QString) : QCommandEdit :=
  deliverBufferSignals w.hasSelectedText w.cursorPosition
    { w with text := t, selStart := 0, selEnd := 0, cursorPosition := t.length }

/-- Models `QLineEdit::setCursorPosition`: ignored past the end of the text, otherwise
drops the selection and moves the cursor. -/
def setCursorPosition (w : QCommandEdit) (pos : Nat) : QCommandEdit :=
  if pos ≤ w.text.length then
    deliverBufferSignals w.hasSelectedText w.cursorPosition
      { w with selStart := 0, selEnd := 0, cursorPosition := pos }
  else w

/-- Models `QLineEdit::setSelection`: selects `length` characters from `start`
(clipped to the text) and puts the cursor at the end of the selection; a
zero length drops an existing selection and puts the cursor at `start`. -/
def setSelection (w : QCommandEdit) (start length : Nat) : QCommandEdit :=
  if start > w.text.length then w
  else if length > 0 then
    if start = w.selStart ∧ start + length = w.selEnd ∧ w.cursorPosition = w.selEnd then w
    else
      deliverBufferSignals true w.cursorPosition
        { w with selStart := start, selEnd := min (start + length) w.text.length,
                 cursorPosition := min (start + length) w.text.length }
  else if w.selStart = w.selEnd then w
  else
    deliverBufferSignals true w.cursorPosition
      { w with selStart := 0, selEnd := 0, cursorPosition := start }

/-- Models `QObject::blockSignals`: sets the flag; the caller keeps the old value. -/
def blockSignals (w : QCommandEdit) (b : Bool) : QCommandEdit :=
  { w with signalsBlocked := b }

/-- The `for` loop of `searchMatchingHistoryAndShowGhost`, entered with
`i = k - 1` and counting down: the suffix of the first entry found that starts
with `text`, or `none` when the loop runs to its end. -/
def ghostLoop (history : List QString) (text : QString) : Nat → Option QString
  | 0 => none
  | i + 1 =>
    if startsWith (history.getD i []) text then some ((history.getD i []).drop text.length)
    else ghostLoop history text i

/-- Embeds `QCommandEdit::searchMatchingHistoryAndShowGhost`. -/
def searchMatchingHistoryAndShowGhost (w : QCommandEdit) : QCommandEdit :=
  let found : Option QString :=
    if w.text ≠ [] ∧ w.showMatchingHistory_ = true then
      ghostLoop w.historyState_.history_ w.text w.historyState_.history_.length
    else none
  match found with
  | some g => { w with ghostSuffix_ := g }
  | none => if w.ghostSuffix_ ≠ [] then { w with ghostSuffix_ := [] } else w

/-- Embeds `QCommandEdit::setShowMatchingHistory`. -/
def setShowMatchingHistory (w : QCommandEdit) (showIt : Bool) : QCommandEdit :=
  let w := { w with showMatchingHistory_ := showIt }
  if showIt then w.searchMatchingHistoryAndShowGhost else w

/-- Embeds `QCommandEdit::setAutoAcceptLongestCommonCompletionPrefix`. -/
def setAutoAcceptLongestCommonCompletionPrefix (w : QCommandEdit) (accept : Bool) :
    QCommandEdit :=
  { w with autoAcceptLongestCommonCompletionPrefix_ := accept }

/-- Embeds `QCommandEdit::clear`. -/
def clear (w : QCommandEdit) : QCommandEdit :=
  let w := w.setText []
  let w := { w with ghostSuffix_ := [] }
  let w := { w with historyState_ := w.historyState_.reset }
  { w with completionState_ := w.completionState_.reset }

/-- Embeds `QCommandEdit::setHistory`. -/
def setHistory (w : QCommandEdit) (history : List QString) : QCommandEdit :=
  let w := if w.historyState_.index_ ≠ -1 then w.clear else w
  let w := { w with historyState_ := { w.historyState_ with history_ := history } }
  { w with historyState_ := w.historyState_.reset }

/-- Embeds `QCommandEdit::setHistoryIndex`. -/
def setHistoryIndex (w : QCommandEdit) (index : Int) : QCommandEdit :=
  if index < 0 ∨ index > (w.historyState_.history_.length : Int) then w
  else
    let w := { w with ghostSuffix_ := [] }
    let w :=
      if index ≥ (w.historyState_.history_.length : Int) then
        let w := w.setText w.historyState_.prefixFilter_
        let w := { w with historyState_ := w.historyState_.reset }
        w.searchMatchingHistoryAndShowGhost
      else
        let w := { w with historyState_ := { w.historyState_ with index_ := index } }
        w.setText (w.historyState_.history_.getD index.toNat [])
    { w with pendingMoveCursorToEnd := w.pendingMoveCursorToEnd + 1 }

/-- Outcome of the `while(1)` loop of `navigateHistory`. -/
inductive ScanResult where
  | found (newIndex : Int)
  | ranOff (newIndex : Int)
  | outOfFuel
deriving DecidableEq, Repr

/-- The `while(1)` loop of `navigateHistory`: `found i` when the loop calls
`setHistoryIndex(i)` and returns, `ranOff i` when it leaves through `break`
with `newIndex = i`. The first argument bounds the number of passes. -/
def historyScan : Nat → List QString → QString → Int → Int → ScanResult
  | 0, _, _, _, _ => .outOfFuel
  | fuel + 1, history, prefixFilter, delta, newIndex =>
    let newIndex := newIndex + delta
    if newIndex < 0 ∨ newIndex ≥ (history.length : Int) then .ranOff newIndex
    else if startsWith (history.getD newIndex.toNat []) prefixFilter then .found newIndex
    else historyScan fuel history prefixFilter delta newIndex

/-- Embeds `QCommandEdit::navigateHistory`. The loop is run with the bound
`length + 1`, which it never exhausts (`historyScan_terminates`), so the last
case of the `match` is never taken. -/
def navigateHistory (w : QCommandEdit) (delta : Int) : QCommandEdit :=
  if delta = 0 then w
  else
    let delta : Int := if delta < -1 then -1 else if delta > 1 then 1 else delta
    let newIndex : Int :=
      if w.historyState_.index_ = -1 then (w.historyState_.history_.length : Int)
      else w.historyState_.index_
    if w.historyState_.prefixFilter_ = [] then w.setHistoryIndex (newIndex + delta)
    else
      match historyScan (w.historyState_.history_.length + 1) w.historyState_.history_
          w.historyState_.prefixFilter_ delta newIndex with
      | .found i => w.setHistoryIndex i
      | .ranOff i =>
        if i ≥ (w.historyState_.history_.length : Int) then
          let savedFilter := w.historyState_.prefixFilter_
          let w := w.setHistoryIndex i
          { w with historyState_ := { w.historyState_ with prefixFilter_ := savedFilter } }
        else w
      | .outOfFuel => w

end QCommandEdit

/-- The inner `for` loop of `longestCommonPrefix` at counter `j`, for the
current `result` and the string `s = strs[i]`; the value is `result` after the
loop. The first argument bounds the number of passes. -/
def lcpScan : Nat → QString → QString → Nat → QString
  | 0, result, _, _ => result
  | fuel + 1, result, s, j =>
    if j < min result.length s.length then
      if j = s.length then s
      else if result.getD j ' ' ≠ s.getD j ' ' then result.take j
      else lcpScan fuel result s (j + 1)
    else result

/-- The static function `longestCommonPrefix` of `qcommandedit.cpp`. The loop
bound `min(result.length(), strs[i].length())` is fixed while the inner loop
runs, because `result` is only assigned right before a `break`; the scan is
given that many passes, and more passes would not change its value
(`lcpScan_fuel`). -/
def longestCommonPrefix (strs : List QString) : QString :=
  match strs with
  | [] => []
  | s0 :: rest =>
    rest.foldl (fun result s => lcpScan (min result.length s.length) result s 0) s0

namespace QCommandEdit

/-- Embeds `QCommandEdit::insertTextAtCursor`. -/
def insertTextAtCursor (w : QCommandEdit) (txt : QString) (selected : Bool) : QCommandEdit :=
  let c : Nat := if w.hasSelectedText then w.selStart else w.cursorPosition
  let oldText := w.text
  let before := oldText.take c
  let after := oldText.drop (c + w.selectedText.length)
  let newText := before ++ txt ++ after
  let w := w.setText newText
  let w := w.setCursorPosition (before.length + txt.length)
  if selected then w.setSelection before.length txt.length else w

/-- Embeds `QCommandEdit::setCurrentCompletion`. -/
def setCurrentCompletion (w : QCommandEdit) (s : QString) : QCommandEdit :=
  let oldBlockSignals := w.signalsBlocked
  let w := w.blockSignals true
  let w := w.insertTextAtCursor s true
  let w := w.blockSignals oldBlockSignals
  w.searchMatchingHistoryAndShowGhost

/-- Embeds `QCommandEdit::navigateCompletion`. -/
def navigateCompletion (w : QCommandEdit) (delta : Int) : QCommandEdit :=
  if delta = 0 then w
  else
    let delta : Int := if delta < -1 then -1 else if delta > 1 then 1 else delta
    let newIndex : Int := w.completionState_.index_ + delta
    if newIndex < 0 ∨ newIndex ≥ (w.completionState_.completion_.length : Int) then w
    else
      let w := { w with completionState_ := { w.completionState_ with index_ := newIndex } }
      w.setCurrentCompletion (w.completionState_.completion_.getD newIndex.toNat [])

/-- Embeds `QCommandEdit::setCompletion`. The pair `r` is the state after the
`if(autoAcceptLongestCommonCompletionPrefix_)` block and whether that block
has executed its `return`. -/
def setCompletion (w : QCommandEdit) (completion : List QString) : QCommandEdit :=
  let w := { w with completionState_ := { w.completionState_ with completion_ := completion } }
  let r : QCommandEdit × Bool :=
    if w.autoAcceptLongestCommonCompletionPrefix_ then
      let lcp := longestCommonPrefix completion
      if lcp ≠ [] ∧ w.completionState_.requested_ = true then
        let completionTrimmed : List QString := completion.map (fun s => s.drop lcp.length)
        let oldBlockSignals := w.signalsBlocked
        let w := w.blockSignals true
        let w := w.insertTextAtCursor lcp false
        let w := w.blockSignals oldBlockSignals
        let w := { w with completionState_ :=
                     { w.completionState_ with completion_ := completionTrimmed } }
        if completionTrimmed.isEmpty then
          ({ w with completionState_ := w.completionState_.reset }, true)
        else (w, false)
      else (w, false)
    else (w, false)
  if r.2 then r.1
  else if r.1.completionState_.requested_ then r.1.navigateCompletion 1
  else r.1

/-- Embeds `QCommandEdit::resetCompletion`. -/
def resetCompletion (w : QCommandEdit) : QCommandEdit :=
  { w with completionState_ := w.completionState_.reset }

/-- Embeds `QCommandEdit::cancelCompletion`. -/
def cancelCompletion (w : QCommandEdit) : QCommandEdit :=
  if w.hasSelectedText then
    let w := w.setCurrentCompletion []
    { w with completionState_ := w.completionState_.reset }
  else w

/-- Embeds `QCommandEdit::acceptCompletion`. -/
def acceptCompletion (w : QCommandEdit) : QCommandEdit :=
  if w.hasSelectedText then
    let currentCompletion := w.selectedText
    let w := w.cancelCompletion
    let c := w.cursorPosition
    let t := w.text
    let w := w.setText (t.take c ++ currentCompletion ++ t.drop c)
    let w := w.setCursorPosition (c + currentCompletion.length)
    let w := { w with completionState_ := w.completionState_.reset }
    w.searchMatchingHistoryAndShowGhost
  else w

/-- Embeds `QCommandEdit::moveCursorToEnd`. -/
def moveCursorToEnd (w : QCommandEdit) : QCommandEdit :=
  w.setCursorPosition w.text.length

/-- Embeds `QCommandEdit::onReturnPressed`. -/
def onReturnPressed (w : QCommandEdit) : QCommandEdit :=
  if w.text = [] then w
  else if w.hasSelectedText then w.acceptCompletion
  else { w with emitted := w.emitted ++ [HostSignal.execute w.text] }

/-- Embeds `QCommandEdit::onEscapePressed`. -/
def onEscapePressed (w : QCommandEdit) : QCommandEdit :=
  let w := if w.text = [] then { w with emitted := w.emitted ++ [HostSignal.escape] } else w
  if w.hasSelectedText then w.cancelCompletion else w.clear

/-- Embeds `QCommandEdit::onUpPressed`. -/
def onUpPressed (w : QCommandEdit) : QCommandEdit := w.navigateHistory (-1)

/-- Embeds `QCommandEdit::onDownPressed`. -/
def onDownPressed (w : QCommandEdit) : QCommandEdit := w.navigateHistory 1

/-- Embeds `QCommandEdit::onTabPressed`. -/
def onTabPressed (w : QCommandEdit) : QCommandEdit :=
  if w.completionState_.completion_ = [] then
    if w.completionState_.requested_ then w
    else
      let w := { w with completionState_ := { w.completionState_ with requested_ := true } }
      { w with emitted := w.emitted ++ [HostSignal.askCompletion w.text w.cursorPosition] }
  else w.navigateCompletion 1

/-- Embeds `QCommandEdit::onShiftTabPressed`. -/
def onShiftTabPressed (w : QCommandEdit) : QCommandEdit := w.navigateCompletion (-1)

/-- Embeds `QCommandEdit::onTextEdited`. -/
def onTextEdited (w : QCommandEdit) : QCommandEdit :=
  let w := w.resetCompletion
  let w := { w with historyState_ := { w.historyState_ with prefixFilter_ := w.text } }
  if w.cursorPosition = w.text.length then w.searchMatchingHistoryAndShowGhost else w

end QCommandEdit

/-! ## mainwindow.cpp -/

/-- Embeds `MainWindow`: the command editor of the form (`ui->commandEdit`),
the history list and the word list. -/
structure MainWindow where
  commandEdit : QCommandEdit
  history_ : List QString
  words_ : List QString
deriving DecidableEq, Repr

namespace MainWindow

/-- State built by the constructor `MainWindow::MainWindow`: the history and
the dictionary are filled, the history is handed to the editor and the ghost
suggestion is switched on. -/
def init : MainWindow :=
  let history : List QString :=
    ["break if x == 1".toList, "lambda x: try import foo else return".toList,
     "local y".toList, "raise Exception(...)".toList, "return 0".toList,
     "while x > 0: print(x); x += 1".toList, "for i in range(100): print(i)".toList]
  let words : List QString :=
    ["True".toList, "False".toList, "None".toList, "and".toList, "as".toList,
     "assert".toList, "break".toList, "class".toList, "continue".toList, "def".toList,
     "del".toList, "elif".toList, "else".toList, "except".toList, "finally".toList,
     "for".toList, "from".toList, "global".toList, "if".toList, "import".toList,
     "in".toList, "is".toList, "lambda".toList, "local".toList, "not".toList,
     "or".toList, "pass".toList, "raise".toList, "return".toList, "try".toList,
     "while".toList, "with".toList, "yield".toList]
  { commandEdit := (QCommandEdit.init.setHistory history).setShowMatchingHistory true,
    history_ := history,
    words_ := words }

/-- Embeds `MainWindow::onExecute`. -/
def onExecute (m : MainWindow) (s : QString) : MainWindow :=
  let m := { m with history_ := m.history_ ++ [s] }
  let m := { m with commandEdit := m.commandEdit.clear }
  { m with commandEdit := m.commandEdit.setHistory m.history_ }

/-- The `try` block of `MainWindow::onAskCompletion` up to the argument of
`setCompletion`: the list `comp`, or the message that was thrown. The
tokenizer `t` is a fresh `QSimpleCommandTokenizer`. -/
def completionCandidates (m : MainWindow) (cmd : QString) (cursorPos : Int) :
    Except String (List QString) :=
  let t : QCommandTokenizer := { command_ := [], tokens_ := [] }
  let t := t.setCommand cmd
  match t.getTokenAtCharPos cursorPos with
  | .error ex => .error ex
  | .ok tok =>
    if cursorPos ≠ (tok.end_ : Int) then .error "Not completing at middle of token"
    else
      .ok (m.words_.filterMap
        (fun w => if startsWith w tok.token_ then some (w.drop tok.token_.length) else none))

/-- Embeds `MainWindow::onAskCompletion`: the candidates are handed to
`setCompletion`; a thrown message is caught and the handler returns. -/
def onAskCompletion (m : MainWindow) (cmd : QString) (cursorPos : Int) : MainWindow :=
  match m.completionCandidates cmd cursorPos with
  | .ok comp => { m with commandEdit := m.commandEdit.setCompletion comp }
  | .error _ => m

/-- Embeds `MainWindow::onEscape`, which only writes a debug message. -/
def onEscape (m : MainWindow) : MainWindow := m

end MainWindow

end QCommandEditModel

/-! ## Notions used to state the properties, and example states -/

namespace QCommandEditModel
open QCommandEdit

/-- The half-open range `[a, b)` of `s` is a maximal run of consecutive
non-separator characters: it is non-empty, holds no separator, and is bounded
on each side by a separator or by an end of the string. -/
def IsMaximalRun (s : QString) (a b : Nat) : Prop :=
  a < b ∧ b ≤ s.length ∧
  (∀ k, a ≤ k → k < b → isSeparator (s.getD k ' ') = false) ∧
  (a = 0 ∨ isSeparator (s.getD (a - 1) ' ') = true) ∧
  (b = s.length ∨ isSeparator (s.getD b ' ') = true)

/-- The pair of `cur` and `tokens_` after the first `k` passes of the loop of
`tokenize` on a cleared tokenizer. -/
def tokenizeUpTo (s : QString) (k : Nat) : Token × List Token :=
  (List.range k).foldl (tokenizeStep s)
    ({ token_ := [], type_ := 0, start_ := 0, end_ := 0 }, [])

/-- Loop invariant of `tokenize` before pass `k`. -/
structure TokInv (s : QString) (k : Nat) (st : Token × List Token) : Prop where
  type_zero : st.1.type_ = 0
  start_le : st.1.start_ ≤ k
  text_eq : st.1.token_ = (s.drop st.1.start_).take (k - st.1.start_)
  no_sep : ∀ j, st.1.start_ ≤ j → j < k → j < s.length ∧ isSeparator (s.getD j ' ') = false
  left_edge : st.1.start_ = 0 ∨
    (st.1.start_ ≤ s.length ∧ isSeparator (s.getD (st.1.start_ - 1) ' ') = true) ∨
    st.1.start_ = s.length + 1
  sound : ∀ t ∈ st.2, t.type_ = 0 ∧ t.token_ = (s.drop t.start_).take (t.end_ - t.start_) ∧
    IsMaximalRun s t.start_ t.end_ ∧ t.end_ < st.1.start_
  complete : ∀ a b, IsMaximalRun s a b → b < st.1.start_ →
    ∃ t ∈ st.2, t.start_ = a ∧ t.end_ = b
  sorted : st.2.Pairwise (fun t1 t2 => t1.end_ < t2.start_)
  at_end : k = s.length + 1 → st.1.start_ = s.length + 1

/-- The tokenizer of the self test in `main.cpp`, after `setCommand`. -/
def exampleTokenizer : QCommandTokenizer :=
  QCommandTokenizer.setCommand { command_ := [], tokens_ := [] } "  foo bar  baz".toList

/-- The history model of the example of the specification: entries
`foo`, `bar`, `faz`, not browsing, the user has typed `f`. -/
def exampleHistory : QCommandEdit :=
  { QCommandEdit.init with
    text := "f".toList, cursorPosition := 1,
    historyState_ :=
      { history_ := ["foo".toList, "bar".toList, "faz".toList], index_ := -1,
        prefixFilter_ := "f".toList } }

/-- The example history with an empty prefix filter. -/
def exampleUnfiltered : QCommandEdit :=
  { QCommandEdit.init with
    historyState_ :=
      { history_ := ["foo".toList, "bar".toList, "faz".toList], index_ := -1,
        prefixFilter_ := [] } }

/-- The example history while browsing at entry `0` (`foo`) with filter `f`. -/
def exampleBrowsing : QCommandEdit :=
  { QCommandEdit.init with
    text := "foo".toList, cursorPosition := 3,
    historyState_ :=
      { history_ := ["foo".toList, "bar".toList, "faz".toList], index_ := 0,
        prefixFilter_ := "f".toList } }

/-- The example history while browsing at entry `2` (`faz`) with filter `f`. -/
def exampleLast : QCommandEdit :=
  { QCommandEdit.init with
    text := "faz".toList, cursorPosition := 3,
    historyState_ :=
      { history_ := ["foo".toList, "bar".toList, "faz".toList], index_ := 2,
        prefixFilter_ := "f".toList } }

/-- A list `p` is a common prefix of `strs` when it is a prefix of every element. -/
def IsCommonPrefix (strs : List QString) (p : QString) : Prop :=
  ∀ s ∈ strs, p <+: s

/-- The longest common prefix in the sense of the glossary: a common prefix
that no common prefix exceeds in length. -/
def IsLongestCommonPrefix (strs : List QString) (p : QString) : Prop :=
  IsCommonPrefix strs p ∧ ∀ q, IsCommonPrefix strs q → q.length ≤ p.length

/-- A widget in which the user has typed `f` and a completion request is
pending: `requested_` is set and no candidate has been proposed yet. -/
def exampleRequest : QCommandEdit :=
  { QCommandEdit.init with
    text := "f".toList, cursorPosition := 1,
    completionState_ := { completion_ := [], requested_ := true, index_ := -1 } }

/-- A buffer with text `abc` in which `b` is selected, the cursor after it. -/
def exampleSelection : QCommandEdit :=
  { QCommandEdit.init with
    text := "abc".toList, cursorPosition := 2, selStart := 1, selEnd := 2 }

/-- The widget after `setCompletion` with candidates `oo`, `op` on the pending
request of `exampleRequest`: text `foo`, the first suffix `o` selected. -/
def exampleCycling : QCommandEdit :=
  exampleRequest.setCompletion ["oo".toList, "op".toList]

/-- The position at which `insertTextAtCursor` inserts: the local `c`. -/
def insertionPoint (w : QCommandEdit) : Nat :=
  if w.hasSelectedText then w.selStart else w.cursorPosition

/-- The widget of the ghost example: history `foo bar`, suggestions switched
on, the user has typed `foo` and the cursor is at the end. -/
def exampleGhost : QCommandEdit :=
  { QCommandEdit.init with
    text := "foo".toList, cursorPosition := 3, showMatchingHistory_ := true,
    historyState_ := { history_ := ["foo bar".toList], index_ := -1, prefixFilter_ := [] } }

/-- The cursor position `k` is exactly at the end of a token of `cmd`: there is
a non-separator character right before it, and a separator or the end of the
command at it. -/
def AtTokenEnd (cmd : QString) (k : Int) : Prop :=
  k > 0 ∧ isSeparator (cmd.getD (k.toNat - 1) ' ') = false ∧
  (k = (cmd.length : Int) ∨ isSeparator (cmd.getD k.toNat ' ') = true)

instance instDecidableAtTokenEnd (cmd : QString) (k : Int) :
    Decidable (AtTokenEnd cmd k) := by
  unfold AtTokenEnd
  infer_instance

/-- What the line edit does when the user types or deletes: the text becomes
`t` with the cursor at `pos` (clipped to the text) and nothing selected; then
`textEdited` reaches `onTextEdited`, followed by the selection and cursor
notifications. Nothing is delivered while signals are blocked. -/
def userEdit (w : QCommandEdit) (t : QString) (pos : Nat) : QCommandEdit :=
  let w1 : QCommandEdit :=
    { w with text := t, selStart := 0, selEnd := 0, cursorPosition := min pos t.length }
  let w2 := if w1.signalsBlocked then w1 else w1.onTextEdited
  deliverBufferSignals w.hasSelectedText w.cursorPosition w2

/-- The operations that drive the widget: its public slots, the key handlers,
and what the user or the host does to the text buffer. -/
inductive Op where
  | setShowMatchingHistory (showIt : Bool)
  | setAutoAcceptLongestCommonCompletionPrefix (accept : Bool)
  | clear
  | setHistory (history : List QString)
  | navigateHistory (delta : Int)
  | setHistoryIndex (index : Int)
  | insertTextAtCursor (txt : QString) (selected : Bool)
  | setCompletion (completion : List QString)
  | resetCompletion
  | setCurrentCompletion (s : QString)
  | navigateCompletion (delta : Int)
  | acceptCompletion
  | cancelCompletion
  | moveCursorToEnd
  | returnPressed
  | escapePressed
  | upPressed
  | downPressed
  | tabPressed
  | shiftTabPressed
  | userEdit (t : QString) (pos : Nat)
  | setText (t : QString)
  | setCursorPosition (pos : Nat)
  | setSelection (start length : Nat)
deriving DecidableEq, Repr

/-- One operation applied to the widget. -/
def step (w : QCommandEdit) : Op → QCommandEdit
  | .setShowMatchingHistory b => w.setShowMatchingHistory b
  | .setAutoAcceptLongestCommonCompletionPrefix b =>
    w.setAutoAcceptLongestCommonCompletionPrefix b
  | .clear => w.clear
  | .setHistory h => w.setHistory h
  | .navigateHistory d => w.navigateHistory d
  | .setHistoryIndex i => w.setHistoryIndex i
  | .insertTextAtCursor txt sel => w.insertTextAtCursor txt sel
  | .setCompletion cs => w.setCompletion cs
  | .resetCompletion => w.resetCompletion
  | .setCurrentCompletion s => w.setCurrentCompletion s
  | .navigateCompletion d => w.navigateCompletion d
  | .acceptCompletion => w.acceptCompletion
  | .cancelCompletion => w.cancelCompletion
  | .moveCursorToEnd => w.moveCursorToEnd
  | .returnPressed => w.onReturnPressed
  | .escapePressed => w.onEscapePressed
  | .upPressed => w.onUpPressed
  | .downPressed => w.onDownPressed
  | .tabPressed => w.onTabPressed
  | .shiftTabPressed => w.onShiftTabPressed
  | .userEdit t pos => userEdit w t pos
  | .setText t => w.setText t
  | .setCursorPosition pos => w.setCursorPosition pos
  | .setSelection start length => w.setSelection start length

/-- The state reached from the constructed widget by a sequence of operations. -/
def run (ops : List Op) : QCommandEdit :=
  ops.foldl step QCommandEdit.init

/-- The history index is none or a position of an entry. -/
def HistoryIndexOk (w : QCommandEdit) : Prop :=
  w.historyState_.index_ = -1 ∨
  (0 ≤ w.historyState_.index_ ∧
    w.historyState_.index_ < (w.historyState_.history_.length : Int))

/-- The completion index is none or a position of a candidate. -/
def CompletionIndexOk (w : QCommandEdit) : Prop :=
  w.completionState_.index_ = -1 ∨
  (0 ≤ w.completionState_.index_ ∧
    w.completionState_.index_ < (w.completionState_.completion_.length : Int))

instance instDecidableHistoryIndexOk (w : QCommandEdit) : Decidable (HistoryIndexOk w) := by
  unfold HistoryIndexOk
  infer_instance

instance instDecidableCompletionIndexOk (w : QCommandEdit) :
    Decidable (CompletionIndexOk w) := by
  unfold CompletionIndexOk
  infer_instance

/-- The operation is `setCompletion` only if the completion index of `w` is
none, as it is when the host answers a request issued by Tab. -/
def answersFreshRequest (w : QCommandEdit) : Op → Bool
  | .setCompletion _ => decide (w.completionState_.index_ = -1)
  | _ => true

/-- Every `setCompletion` of the sequence, run from `w`, finds the completion
index none. -/
def followsProtocol : QCommandEdit → List Op → Bool
  | _, [] => true
  | w, op :: rest => answersFreshRequest w op && followsProtocol (step w op) rest

/-- The second state has the entries and the history index of the first. -/
def SameHistoryIndex (w w' : QCommandEdit) : Prop :=
  w'.historyState_.history_ = w.historyState_.history_ ∧
  w'.historyState_.index_ = w.historyState_.index_

/-- The completion model of the second state is that of the first, or reset. -/
def CompletionKeptOrReset (w w' : QCommandEdit) : Prop :=
  w'.completionState_ = w.completionState_ ∨
  w'.completionState_ = { completion_ := [], requested_ := false, index_ := -1 }

/-- The state in which `setCompletion` proposes the first candidate after it
has accepted the common prefix: the prefix is inserted with signals blocked
and the candidates are replaced by their remainders. -/
def afterPrefixAccepted (w : QCommandEdit) (completion : List QString) : QCommandEdit :=
  let w1 : QCommandEdit :=
    { w with completionState_ := { w.completionState_ with completion_ := completion } }
  let w2 := ((w1.blockSignals true).insertTextAtCursor ( longestCommonPrefix completion)
    false).blockSignals w1.signalsBlocked
  { w2 with completionState_ :=
      { w2.completionState_ with
        completion_ := completion.map (fun s => s.drop ( longestCommonPrefix completion).length) } }

/-- The candidate `s` is shown in the buffer between `B` and `A`: it is the
selected text when it is non-empty, and the cursor stands right after it. -/
def CandidateShown (w : QCommandEdit) (B A s : QString) : Prop :=
  w.text = B ++ s ++ A ∧ w.cursorPosition = B.length + s.length ∧
  (if s ≠ [] then w.selStart = B.length ∧ w.selEnd = B.length + s.length
   else w.hasSelectedText = false)

instance instDecidableCandidateShown (w : QCommandEdit) (B A s : QString) :
    Decidable (CandidateShown w B A s) := by
  unfold CandidateShown
  infer_instance

/-! ## Theorems: the tokenizer -/

theorem take_drop_succ (s : QString) (a k : Nat) (hak : a ≤ k) (hk : k < s.length) :
    (s.drop a).take (k + 1 - a) = (s.drop a).take (k - a) ++ [s.getD k ' '] := by
  have h1 : k + 1 - a = (k - a) + 1 := by omega
  have h2 : a + (k - a) = k := by omega
  rw [h1, List.take_succ, List.getElem?_drop, h2]
  simp [List.getD_eq_getElem?_getD, List.getElem?_eq_getElem hk]

theorem tokInv_zero (s : QString) :
    TokInv s 0 ({ token_ := [], type_ := 0, start_ := 0, end_ := 0 }, []) where
  type_zero := rfl
  start_le := le_refl _
  text_eq := by simp
  no_sep := by intro j _ hj; omega
  left_edge := Or.inl rfl
  sound := by intro t ht; simp at ht
  complete := by intro a b _ hb; simp at hb
  sorted := List.Pairwise.nil
  at_end := by intro h; omega

theorem tokenizeStep_sep (s : QString) (st : Token × List Token) (k : Nat)
    (hsep : k = s.length ∨ isSeparator (s.getD k ' ') = true) :
    tokenizeStep s st k =
      if st.1.token_ ≠ [] then
        ({ st.1 with token_ := [], start_ := k + 1, end_ := k + 1 },
          st.2 ++ [{ st.1 with end_ := k }])
      else ({ st.1 with start_ := k + 1, end_ := k + 1 }, st.2) := by
  have hc : k = s.length ∨
      isSeparator (if k < s.length then s.getD k ' ' else ' ') = true := by
    rcases hsep with h | h
    · exact Or.inl h
    · by_cases hk : k < s.length
      · exact Or.inr (by rw [if_pos hk]; exact h)
      · exact Or.inr (by rw [if_neg hk]; decide)
  unfold tokenizeStep
  simp only [hc, if_true]
  split <;> rfl

theorem tokenizeStep_char (s : QString) (st : Token × List Token) (k : Nat)
    (hk : k < s.length) (hns : isSeparator (s.getD k ' ') = false) :
    tokenizeStep s st k = ({ st.1 with token_ := st.1.token_ ++ [s.getD k ' '] }, st.2) := by
  have hc : ¬ (k = s.length ∨ isSeparator (s.getD k ' ') = true) := by
    intro h
    rcases h with h | h
    · omega
    · rw [hns] at h; exact Bool.noConfusion h
  unfold tokenizeStep
  simp only [hk, if_true]
  rw [if_neg hc]

theorem tokInv_token_length {s : QString} {k : Nat} {st : Token × List Token}
    (h : TokInv s k st) (hk : k ≤ s.length) : st.1.token_.length = k - st.1.start_ := by
  rw [h.text_eq, List.length_take, List.length_drop]
  omega

theorem tokInv_step (s : QString) (k : Nat) (st : Token × List Token)
    (h : TokInv s k st) (hk : k ≤ s.length) : TokInv s (k + 1) (tokenizeStep s st k) := by
  have hlen := tokInv_token_length h hk
  have hstart := h.start_le
  by_cases hsep : k = s.length ∨ isSeparator (s.getD k ' ') = true
  · rw [tokenizeStep_sep s st k hsep]
    have hedge : k + 1 ≤ s.length ∧ isSeparator (s.getD (k + 1 - 1) ' ') = true ∨
        k + 1 = s.length + 1 := by
      rcases hsep with h1 | h1
      · exact Or.inr (by omega)
      · by_cases h2 : k = s.length
        · exact Or.inr (by omega)
        · exact Or.inl ⟨by omega, by simpa using h1⟩
    by_cases hne : st.1.token_ ≠ []
    · have hpos : 0 < st.1.token_.length := List.length_pos.mpr hne
      have hlt : st.1.start_ < k := by omega
      have hrun : IsMaximalRun s st.1.start_ k := by
        refine ⟨hlt, hk, fun j hj1 hj2 => (h.no_sep j hj1 hj2).2, ?_, hsep⟩
        rcases h.left_edge with h1 | h1 | h1
        · exact Or.inl h1
        · exact Or.inr h1.2
        · omega
      rw [if_pos hne]
      refine ⟨h.type_zero, by simp, by simp, ?_, Or.inr hedge, ?_, ?_, ?_, ?_⟩
      · intro j hj1 hj2
        simp only at hj1
        omega
      · intro t ht
        simp only [List.mem_append, List.mem_singleton] at ht
        rcases ht with ht | rfl
        · obtain ⟨a1, a2, a3, a4⟩ := h.sound t ht
          exact ⟨a1, a2, a3, by simp only; omega⟩
        · exact ⟨h.type_zero, h.text_eq, hrun, by simp⟩
      · intro a b hab hb
        simp only at hb
        by_cases hb2 : b < st.1.start_
        · obtain ⟨t, ht, e1, e2⟩ := h.complete a b hab hb2
          exact ⟨t, List.mem_append_left _ ht, e1, e2⟩
        · obtain ⟨r1, r2, r3, r4, r5⟩ := hab
          have hbk : b = k := by
            by_contra hbk
            have hb3 : b < k := by omega
            have := h.no_sep b (by omega) hb3
            rcases r5 with r5 | r5
            · omega
            · rw [this.2] at r5; exact Bool.noConfusion r5
          subst hbk
          have ha : a = st.1.start_ := by
            by_contra ha
            rcases Nat.lt_or_gt_of_ne ha with ha | ha
            · have h3 := r3 (st.1.start_ - 1) (by omega) (by omega)
              rcases h.left_edge with h1 | h1 | h1
              · omega
              · rw [h3] at h1; exact Bool.noConfusion h1.2
              · omega
            · have h3 := h.no_sep (a - 1) (by omega) (by omega)
              rcases r4 with r4 | r4
              · omega
              · rw [h3.2] at r4; exact Bool.noConfusion r4
          exact ⟨{ st.1 with end_ := b }, by simp, ha.symm, rfl⟩
      · rw [List.pairwise_append]
        refine ⟨h.sorted, List.pairwise_singleton _ _, ?_⟩
        intro t1 ht1 t2 ht2
        simp only [List.mem_singleton] at ht2
        subst ht2
        exact (h.sound t1 ht1).2.2.2
      · intro hc; simp only; omega
    · have hnil : st.1.token_ = [] := by simpa using hne
      have hsk : st.1.start_ = k := by
        rw [hnil] at hlen
        simp only [List.length_nil] at hlen
        omega
      rw [if_neg hne]
      refine ⟨h.type_zero, by simp, by simp [hnil], ?_, Or.inr hedge, ?_, ?_, h.sorted, ?_⟩
      · intro j hj1 hj2
        simp only at hj1
        omega
      · intro t ht
        obtain ⟨a1, a2, a3, a4⟩ := h.sound t ht
        exact ⟨a1, a2, a3, by simp only; omega⟩
      · intro a b hab hb
        simp only at hb
        by_cases hb2 : b < st.1.start_
        · exact h.complete a b hab hb2
        · exfalso
          obtain ⟨r1, r2, r3, r4, r5⟩ := hab
          have hbk : b = k := by omega
          subst hbk
          have h3 := r3 (b - 1) (by omega) (by omega)
          rcases h.left_edge with h1 | h1 | h1
          · omega
          · rw [hsk, h3] at h1; exact Bool.noConfusion h1.2
          · omega
      · intro hc; simp only; omega
  · have hk2 : k < s.length := by
      by_contra hc
      exact hsep (Or.inl (by omega))
    have hns : isSeparator (s.getD k ' ') = false := by
      cases hv : isSeparator (s.getD k ' ')
      · rfl
      · exact absurd (Or.inr hv) hsep
    rw [tokenizeStep_char s st k hk2 hns]
    refine ⟨h.type_zero, by simp only; omega, ?_, ?_, h.left_edge, ?_, h.complete, h.sorted, ?_⟩
    · simp only
      rw [take_drop_succ s st.1.start_ k hstart hk2, ← h.text_eq]
    · intro j hj1 hj2
      simp only at hj1
      by_cases hjk : j = k
      · subst hjk; exact ⟨hk2, hns⟩
      · exact h.no_sep j hj1 (by omega)
    · intro t ht
      exact h.sound t ht
    · intro hc
      omega

theorem tokenizeUpTo_succ (s : QString) (k : Nat) :
    tokenizeUpTo s (k + 1) = tokenizeStep s (tokenizeUpTo s k) k := by
  unfold tokenizeUpTo
  rw [List.range_succ, List.foldl_append]
  rfl

theorem tokInv_upTo (s : QString) : ∀ k, k ≤ s.length + 1 → TokInv s k (tokenizeUpTo s k) := by
  intro k
  induction k with
  | zero => intro _; exact tokInv_zero s
  | succ k ih =>
    intro hk
    rw [tokenizeUpTo_succ]
    exact tokInv_step s k _ (ih (by omega)) (by omega)

theorem setCommand_command (t : QCommandTokenizer) (s : QString) :
    (t.setCommand s).command_ = s := rfl

theorem setCommand_tokens (t : QCommandTokenizer) (s : QString) :
    (t.setCommand s).tokens_ = (tokenizeUpTo s (s.length + 1)).2 := rfl

theorem getTokens_eq (t : QCommandTokenizer) : t.getTokens = t.tokens_ := by
  unfold QCommandTokenizer.getTokens
  have : ∀ (l acc : List Token), l.foldl (fun tokens tok => tokens ++ [tok]) acc = acc ++ l := by
    intro l
    induction l with
    | nil => intro acc; simp
    | cons x xs ih => intro acc; simp [ih]
  simpa using this t.tokens_ []

/-- What the loop invariant says once the loop has ended. -/
theorem tokens_spec (t : QCommandTokenizer) (s : QString) :
    (∀ tok ∈ (t.setCommand s).tokens_,
      tok.type_ = 0 ∧ tok.token_ = (s.drop tok.start_).take (tok.end_ - tok.start_) ∧
      IsMaximalRun s tok.start_ tok.end_) ∧
    (∀ a b, IsMaximalRun s a b →
      ∃ tok ∈ (t.setCommand s).tokens_, tok.start_ = a ∧ tok.end_ = b) ∧
    (t.setCommand s).tokens_.Pairwise (fun t1 t2 => t1.end_ < t2.start_) := by
  have h := tokInv_upTo s (s.length + 1) (le_refl _)
  rw [setCommand_tokens]
  refine ⟨?_, ?_, h.sorted⟩
  · intro tok htok
    obtain ⟨a1, a2, a3, _⟩ := h.sound tok htok
    exact ⟨a1, a2, a3⟩
  · intro a b hab
    have hs := h.at_end rfl
    exact h.complete a b hab (by have := hab.2.1; omega)

/-- C5: after `setCommand(s)` the token list is exactly the maximal runs of
non-separator characters of `s`, left to right: every token has a non-empty
text equal to `s[start, end)`, starts at its first character, ends at
`start + length` on a separator or at the end of `s`; every maximal run is a
token; the tokens are in strictly increasing position; a command without a
non-separator character yields no token. -/
theorem setCommand_tokens_are_maximal_runs (t : QCommandTokenizer) (s : QString) :
    (∀ tok ∈ (t.setCommand s).getTokens,
      tok.token_ ≠ [] ∧
      tok.token_ = (s.drop tok.start_).take (tok.end_ - tok.start_) ∧
      tok.end_ = tok.start_ + tok.token_.length ∧
      IsMaximalRun s tok.start_ tok.end_) ∧
    (∀ a b, IsMaximalRun s a b →
      ∃ tok ∈ (t.setCommand s).getTokens, tok.start_ = a ∧ tok.end_ = b) ∧
    (t.setCommand s).getTokens.Pairwise (fun t1 t2 => t1.end_ < t2.start_) ∧
    ((∀ c ∈ s, isSeparator c = true) → (t.setCommand s).getTokens = []) := by
  obtain ⟨h1, h2, h3⟩ := tokens_spec t s
  rw [getTokens_eq]
  have hlen : ∀ tok ∈ (t.setCommand s).tokens_,
      tok.token_.length = tok.end_ - tok.start_ ∧ tok.start_ < tok.end_ := by
    intro tok htok
    obtain ⟨_, a2, a3⟩ := h1 tok htok
    have hb := a3.2.1
    have ha := a3.1
    refine ⟨?_, ha⟩
    rw [a2, List.length_take, List.length_drop]
    omega
  refine ⟨?_, h2, h3, ?_⟩
  · intro tok htok
    obtain ⟨_, a2, a3⟩ := h1 tok htok
    obtain ⟨l1, l2⟩ := hlen tok htok
    refine ⟨?_, a2, by omega, a3⟩
    intro hnil
    rw [hnil] at l1
    simp only [List.length_nil] at l1
    omega
  · intro hall
    cases hl : (t.setCommand s).tokens_ with
    | nil => rfl
    | cons tok rest =>
      exfalso
      have htok : tok ∈ (t.setCommand s).tokens_ := by rw [hl]; exact List.mem_cons_self _ _
      obtain ⟨_, _, a3⟩ := h1 tok htok
      obtain ⟨r1, r2, r3, _, _⟩ := a3
      have hns := r3 tok.start_ (le_refl _) r1
      have hlt : tok.start_ < s.length := by omega
      have hmem : s.getD tok.start_ ' ' ∈ s := by
        rw [List.getD_eq_getElem _ _ hlt]
        exact List.getElem_mem _
      rw [hall _ hmem] at hns
      exact Bool.noConfusion hns

theorem run_extend_left (s : QString) :
    ∀ i, isSeparator (s.getD i ' ') = false →
      ∃ a, a ≤ i ∧ (∀ k, a ≤ k → k ≤ i → isSeparator (s.getD k ' ') = false) ∧
        (a = 0 ∨ isSeparator (s.getD (a - 1) ' ') = true) := by
  intro i
  induction i with
  | zero =>
    intro h0
    exact ⟨0, le_refl _, fun k _ hk => by
      have : k = 0 := by omega
      subst this; exact h0, Or.inl rfl⟩
  | succ i ih =>
    intro h1
    cases hv : isSeparator (s.getD i ' ')
    · obtain ⟨a, ha, hall, hedge⟩ := ih hv
      refine ⟨a, by omega, ?_, hedge⟩
      intro k hk1 hk2
      by_cases hk : k = i + 1
      · subst hk; exact h1
      · exact hall k hk1 (by omega)
    · refine ⟨i + 1, le_refl _, ?_, Or.inr (by simpa using hv)⟩
      intro k hk1 hk2
      have : k = i + 1 := by omega
      subst this; exact h1

theorem run_extend_right (s : QString) :
    ∀ d i, i + d = s.length → 0 < d → isSeparator (s.getD i ' ') = false →
      ∃ b, i < b ∧ b ≤ s.length ∧ (∀ k, i ≤ k → k < b → isSeparator (s.getD k ' ') = false) ∧
        (b = s.length ∨ isSeparator (s.getD b ' ') = true) := by
  intro d
  induction d with
  | zero => intro i _ h; omega
  | succ d ih =>
    intro i hi _ hns
    by_cases hend : i + 1 = s.length
    · refine ⟨i + 1, by omega, by omega, ?_, Or.inl hend⟩
      intro k hk1 hk2
      have : k = i := by omega
      subst this; exact hns
    · cases hv : isSeparator (s.getD (i + 1) ' ')
      · obtain ⟨b, hb1, hb2, hall, hedge⟩ := ih (i + 1) (by omega) (by omega) hv
        refine ⟨b, by omega, hb2, ?_, hedge⟩
        intro k hk1 hk2
        by_cases hk : k = i
        · subst hk; exact hns
        · exact hall k (by omega) hk2
      · refine ⟨i + 1, by omega, by omega, ?_, Or.inr hv⟩
        intro k hk1 hk2
        have : k = i := by omega
        subst this; exact hns

/-- Every non-separator character lies in a maximal run. -/
theorem exists_run_of_char (s : QString) (i : Nat) (hi : i < s.length)
    (hns : isSeparator (s.getD i ' ') = false) :
    ∃ a b, IsMaximalRun s a b ∧ a ≤ i ∧ i < b := by
  obtain ⟨a, ha, hla, hea⟩ := run_extend_left s i hns
  obtain ⟨b, hb1, hb2, hlb, heb⟩ := run_extend_right s (s.length - i) i (by omega) (by omega) hns
  refine ⟨a, b, ⟨by omega, hb2, ?_, hea, heb⟩, ha, hb1⟩
  intro k hk1 hk2
  by_cases hk : k ≤ i
  · exact hla k hk1 hk
  · exact hlb k (by omega) hk2

/-- A position `i <= len` touches no maximal run exactly when it has a
separator or a string end on both sides. -/
theorem no_run_iff (s : QString) (i : Nat) (hi : i ≤ s.length) :
    (∀ a b, IsMaximalRun s a b → ¬ (a ≤ i ∧ i ≤ b)) ↔
      ((i = s.length ∨ isSeparator (s.getD i ' ') = true) ∧
       (i = 0 ∨ isSeparator (s.getD (i - 1) ' ') = true)) := by
  constructor
  · intro h
    constructor
    · by_cases hn : i = s.length
      · exact Or.inl hn
      · right
        cases hv : isSeparator (s.getD i ' ')
        · obtain ⟨a, b, hab, h1, h2⟩ := exists_run_of_char s i (by omega) hv
          exact absurd ⟨h1, by omega⟩ (h a b hab)
        · rfl
    · by_cases h0 : i = 0
      · exact Or.inl h0
      · right
        cases hv : isSeparator (s.getD (i - 1) ' ')
        · obtain ⟨a, b, hab, h1, h2⟩ := exists_run_of_char s (i - 1) (by omega) hv
          exact absurd ⟨by omega, by omega⟩ (h a b hab)
        · rfl
  · rintro ⟨hr, hl⟩ a b ⟨r1, r2, r3, r4, r5⟩ ⟨h1, h2⟩
    by_cases hib : i = b
    · subst hib
      have h3 := r3 (i - 1) (by omega) (by omega)
      rcases hl with hl | hl
      · omega
      · rw [h3] at hl; exact Bool.noConfusion hl
    · have h3 := r3 i h1 (by omega)
      rcases hr with hr | hr
      · omega
      · rw [h3] at hr; exact Bool.noConfusion hr

theorem find_overlaps_of_sorted (l : List Token) (i : Int)
    (hs : l.Pairwise (fun t1 t2 => t1.end_ < t2.start_)) (tok : Token) (hmem : tok ∈ l)
    (ho : tok.overlaps i = true) :
    l.find? (fun t => t.overlaps i) = some tok := by
  induction l with
  | nil => simp at hmem
  | cons x xs ih =>
    rw [List.pairwise_cons] at hs
    rcases List.mem_cons.mp hmem with rfl | hx
    · simp [List.find?, ho]
    · have hlt := hs.1 tok hx
      have hx2 : x.overlaps i = false := by
        unfold Token.overlaps at ho ⊢
        simp only [Bool.and_eq_true, decide_eq_true_eq] at ho
        simp only [Bool.and_eq_false_iff, decide_eq_false_iff_not]
        right
        omega
      simp only [List.find?, hx2]
      exact ih hs.2 hx

/-- C6: every token `tok` of `setCommand(s)` is what `getTokenAtCharPos(i)`
returns for every `i` with `tok.start <= i <= tok.end`, in particular for
`i = tok.end` (cursor right after the token); hence two tokens whose inclusive
ranges share an index are the same token. -/
theorem getTokenAtCharPos_in_range (t : QCommandTokenizer) (s : QString) (tok : Token)
    (hmem : tok ∈ (t.setCommand s).getTokens) :
    (∀ i : Int, (tok.start_ : Int) ≤ i → i ≤ (tok.end_ : Int) →
      (t.setCommand s).getTokenAtCharPos i = .ok tok) ∧
    (t.setCommand s).getTokenAtCharPos (tok.end_ : Int) = .ok tok ∧
    (∀ tok2 ∈ (t.setCommand s).getTokens, ∀ i : Int,
      tok.overlaps i = true → tok2.overlaps i = true → tok2 = tok) := by
  obtain ⟨h1, _, h3⟩ := tokens_spec t s
  rw [getTokens_eq] at hmem ⊢
  obtain ⟨_, _, hrun⟩ := h1 tok hmem
  have key : ∀ i : Int, (tok.start_ : Int) ≤ i → i ≤ (tok.end_ : Int) →
      (t.setCommand s).getTokenAtCharPos i = .ok tok := by
    intro i hi1 hi2
    have hb := hrun.2.1
    have hin : ¬ (i < 0 ∨ i > ((t.setCommand s).command_.length : Int)) := by
      rw [setCommand_command]; omega
    have ho : tok.overlaps i = true := by
      unfold Token.overlaps
      simp [hi1, hi2]
    unfold QCommandTokenizer.getTokenAtCharPos
    rw [if_neg hin, find_overlaps_of_sorted _ i h3 tok hmem ho]
  refine ⟨key, key _ (by have := hrun.1; omega) (le_refl _), ?_⟩
  intro tok2 hmem2 i ho ho2
  have e1 := find_overlaps_of_sorted _ i h3 tok hmem ho
  have e2 := find_overlaps_of_sorted _ i h3 tok2 hmem2 ho2
  rw [e1] at e2
  exact (Option.some.inj e2).symm

theorem getTokenAtCharPos_in_range_witness :
    (exampleTokenizer.getTokens.map (fun tok => tok.token_) =
      ["foo".toList, "bar".toList, "baz".toList]) ∧
    exampleTokenizer.getTokenAtCharPos 9 =
      .ok { token_ := "bar".toList, type_ := 0, start_ := 6, end_ := 9 } :=
  ⟨by decide,
   (getTokenAtCharPos_in_range { command_ := [], tokens_ := [] } "  foo bar  baz".toList
      { token_ := "bar".toList, type_ := 0, start_ := 6, end_ := 9 } (by decide)).1 9
      (by decide) (by decide)⟩

/-- C7: for a command `s` of length `n`, `getTokenAtCharPos(i)` throws the
out-of-bounds message iff `i < 0` or `i > n`; for `0 <= i <= n` it throws
`No token` iff (`i = n` or `s[i]` is a separator) and (`i = 0` or `s[i-1]` is a
separator); in every other case it returns a token. -/
theorem getTokenAtCharPos_errors (t : QCommandTokenizer) (s : QString) (i : Int) :
    ((t.setCommand s).getTokenAtCharPos i = .error "Character index out of bounds" ↔
      (i < 0 ∨ i > (s.length : Int))) ∧
    (0 ≤ i → i ≤ (s.length : Int) →
      ((t.setCommand s).getTokenAtCharPos i = .error "No token" ↔
        ((i = (s.length : Int) ∨ isSeparator (s.getD i.toNat ' ') = true) ∧
         (i = 0 ∨ isSeparator (s.getD (i.toNat - 1) ' ') = true)))) ∧
    (¬ (i < 0 ∨ i > (s.length : Int)) →
      ¬ ((i = (s.length : Int) ∨ isSeparator (s.getD i.toNat ' ') = true) ∧
         (i = 0 ∨ isSeparator (s.getD (i.toNat - 1) ' ') = true)) →
      ∃ tok, (t.setCommand s).getTokenAtCharPos i = .ok tok) := by
  obtain ⟨h1, h2, h3⟩ := tokens_spec t s
  have hne : ("No token" : String) ≠ "Character index out of bounds" := by decide
  -- inside the bounds, the lookup fails exactly when no maximal run touches `i`
  have inb : ∀ k : Nat, k ≤ s.length →
      ((t.setCommand s).getTokenAtCharPos (k : Int) = .error "No token" ↔
        ∀ a b, IsMaximalRun s a b → ¬ (a ≤ k ∧ k ≤ b)) ∧
      ((∃ a b, IsMaximalRun s a b ∧ a ≤ k ∧ k ≤ b) →
        ∃ tok, (t.setCommand s).getTokenAtCharPos (k : Int) = .ok tok) ∧
      (t.setCommand s).getTokenAtCharPos (k : Int) ≠ .error "Character index out of bounds" := by
    intro k hk
    have hin : ¬ ((k : Int) < 0 ∨ (k : Int) > ((t.setCommand s).command_.length : Int)) := by
      rw [setCommand_command]; omega
    have hcov : ∀ a b, IsMaximalRun s a b → a ≤ k → k ≤ b →
        ∃ tok, (t.setCommand s).getTokenAtCharPos (k : Int) = .ok tok := by
      intro a b hab ha hb
      obtain ⟨tok, hmem, e1, e2⟩ := h2 a b hab
      have ho : tok.overlaps (k : Int) = true := by
        unfold Token.overlaps
        simp only [Bool.and_eq_true, decide_eq_true_eq]
        omega
      refine ⟨tok, ?_⟩
      unfold QCommandTokenizer.getTokenAtCharPos
      rw [if_neg hin, find_overlaps_of_sorted _ _ h3 tok hmem ho]
    refine ⟨⟨?_, ?_⟩, ?_, ?_⟩
    · intro herr a b hab hcon
      obtain ⟨tok, htok⟩ := hcov a b hab hcon.1 hcon.2
      rw [htok] at herr
      exact Except.noConfusion herr
    · intro hno
      unfold QCommandTokenizer.getTokenAtCharPos
      rw [if_neg hin]
      cases hf : (t.setCommand s).tokens_.find? (fun tok => tok.overlaps (k : Int)) with
      | none => rfl
      | some tok =>
        exfalso
        have hmem := List.mem_of_find?_eq_some hf
        have ho := List.find?_some hf
        obtain ⟨_, _, hrun⟩ := h1 tok hmem
        unfold Token.overlaps at ho
        simp only [Bool.and_eq_true, decide_eq_true_eq] at ho
        exact hno _ _ hrun ⟨by omega, by omega⟩
    · rintro ⟨a, b, hab, ha, hb⟩
      exact hcov a b hab ha hb
    · unfold QCommandTokenizer.getTokenAtCharPos
      rw [if_neg hin]
      split
      · exact fun h => Except.noConfusion h
      · intro h
        exact hne (Except.error.inj h)
  refine ⟨?_, ?_, ?_⟩
  · constructor
    · intro herr
      by_contra hcon
      obtain ⟨k, rfl⟩ : ∃ k : Nat, i = (k : Int) := ⟨i.toNat, by omega⟩
      exact (inb k (by omega)).2.2 herr
    · intro hout
      unfold QCommandTokenizer.getTokenAtCharPos
      rw [setCommand_command, if_pos hout]
  · intro h0 hn
    obtain ⟨k, rfl⟩ : ∃ k : Nat, i = (k : Int) := ⟨i.toNat, by omega⟩
    have hk : k ≤ s.length := by omega
    rw [(inb k hk).1, no_run_iff s k hk]
    simp only [Int.toNat_ofNat, Nat.cast_inj, Nat.cast_eq_zero]
  · intro hin hcond
    obtain ⟨k, rfl⟩ : ∃ k : Nat, i = (k : Int) := ⟨i.toNat, by omega⟩
    have hk : k ≤ s.length := by omega
    apply (inb k hk).2.1
    by_contra hno
    apply hcond
    have := (no_run_iff s k hk).mp (by
      intro a b hab hcon
      exact hno ⟨a, b, hab, hcon.1, hcon.2⟩)
    simpa only [Int.toNat_ofNat, Nat.cast_inj, Nat.cast_eq_zero] using this

/-! ## Theorems: history navigation -/

theorem deliverBufferSignals_cases (b : Bool) (o : Nat) (w : QCommandEdit) :
    deliverBufferSignals b o w = w ∨
    deliverBufferSignals b o w = { w with completionState_ := w.completionState_.reset } := by
  unfold deliverBufferSignals onSelectionChanged onCursorPositionChanged
  by_cases h1 : w.signalsBlocked = true
  · simp [h1]
  · by_cases h2 : b = true <;> by_cases h3 : o = w.cursorPosition <;>
      simp [h1, h2, h3, CompletionState.reset]

theorem setText_text (w : QCommandEdit) (t : QString) : (w.setText t).text = t := by
  unfold setText
  rcases deliverBufferSignals_cases w.hasSelectedText w.cursorPosition
    { w with text := t, selStart := 0, selEnd := 0, cursorPosition := t.length } with h | h <;>
  rw [h]

theorem setText_historyState (w : QCommandEdit) (t : QString) :
    (w.setText t).historyState_ = w.historyState_ := by
  unfold setText
  rcases deliverBufferSignals_cases w.hasSelectedText w.cursorPosition
    { w with text := t, selStart := 0, selEnd := 0, cursorPosition := t.length } with h | h <;>
  rw [h]

theorem searchGhost_cases (w : QCommandEdit) :
    ∃ g, w.searchMatchingHistoryAndShowGhost = { w with ghostSuffix_ := g } := by
  unfold searchMatchingHistoryAndShowGhost
  generalize (if w.text ≠ [] ∧ w.showMatchingHistory_ = true then
      ghostLoop w.historyState_.history_ w.text w.historyState_.history_.length
    else none) = found
  cases found with
  | some g => exact ⟨g, rfl⟩
  | none =>
    by_cases h : w.ghostSuffix_ ≠ []
    · exact ⟨[], by simp [h]⟩
    · exact ⟨w.ghostSuffix_, by simp [h]⟩

theorem searchGhost_text (w : QCommandEdit) :
    w.searchMatchingHistoryAndShowGhost.text = w.text := by
  obtain ⟨g, h⟩ := searchGhost_cases w
  rw [h]

theorem searchGhost_historyState (w : QCommandEdit) :
    w.searchMatchingHistoryAndShowGhost.historyState_ = w.historyState_ := by
  obtain ⟨g, h⟩ := searchGhost_cases w
  rw [h]

/-- Selecting an existing entry: the text becomes that entry and only the
index of the history model changes. -/
theorem setHistoryIndex_entry (w : QCommandEdit) (i : Nat)
    (hi : i < w.historyState_.history_.length) :
    (w.setHistoryIndex (i : Int)).text = w.historyState_.history_.getD i [] ∧
    (w.setHistoryIndex (i : Int)).historyState_ =
      { w.historyState_ with index_ := (i : Int) } := by
  have h1 : ¬ ((i : Int) < 0 ∨ (i : Int) > (w.historyState_.history_.length : Int)) := by omega
  have h2 : ¬ ((i : Int) ≥ (w.historyState_.history_.length : Int)) := by omega
  unfold setHistoryIndex
  simp only [h1, h2, if_false, Int.toNat_ofNat, setText_text, setText_historyState, and_self]

/-- Selecting the position one past the last entry: the text becomes the
prefix filter and the history model is reset. -/
theorem setHistoryIndex_end (w : QCommandEdit) :
    (w.setHistoryIndex (w.historyState_.history_.length : Int)).text =
      w.historyState_.prefixFilter_ ∧
    (w.setHistoryIndex (w.historyState_.history_.length : Int)).historyState_ =
      w.historyState_.reset := by
  have h1 : ¬ ((w.historyState_.history_.length : Int) < 0 ∨
      (w.historyState_.history_.length : Int) > (w.historyState_.history_.length : Int)) := by
    omega
  unfold setHistoryIndex
  simp only [h1, if_false, ge_iff_le, le_refl, if_true, searchGhost_text,
    searchGhost_historyState, setText_text, setText_historyState, and_self]

theorem historyScan_back_none (h : List QString) (p : QString) :
    ∀ (k fuel : Nat), k ≤ h.length → k < fuel →
      (∀ j : Nat, j < k → startsWith (h.getD j []) p = false) →
      historyScan fuel h p (-1) (k : Int) = .ranOff (-1) := by
  intro k
  induction k with
  | zero =>
    intro fuel _ hf _
    obtain ⟨f, rfl⟩ : ∃ f, fuel = f + 1 := ⟨fuel - 1, by omega⟩
    simp [historyScan]
  | succ k ih =>
    intro fuel hk hf hno
    obtain ⟨f, rfl⟩ : ∃ f, fuel = f + 1 := ⟨fuel - 1, by omega⟩
    have h1 : ((k + 1 : Nat) : Int) + -1 = (k : Int) := by omega
    have h2 : ¬ ((k : Int) < 0 ∨ (k : Int) ≥ (h.length : Int)) := by omega
    rw [historyScan]
    simp only [h1, h2, if_false, Int.toNat_ofNat, hno k (Nat.lt_succ_self k)]
    exact ih f (by omega) (by omega) (fun j hj => hno j (by omega))

theorem historyScan_fwd_none (h : List QString) (p : QString) :
    ∀ (d k fuel : Nat), k + 1 + d = h.length → d < fuel →
      (∀ j : Nat, k < j → j < h.length → startsWith (h.getD j []) p = false) →
      historyScan fuel h p 1 (k : Int) = .ranOff (h.length : Int) := by
  intro d
  induction d with
  | zero =>
    intro k fuel hk hf _
    obtain ⟨f, rfl⟩ : ∃ f, fuel = f + 1 := ⟨fuel - 1, by omega⟩
    have h1 : (k : Int) + 1 = (h.length : Int) := by omega
    rw [historyScan]
    simp [h1]
  | succ d ih =>
    intro k fuel hk hf hno
    obtain ⟨f, rfl⟩ : ∃ f, fuel = f + 1 := ⟨fuel - 1, by omega⟩
    have h1 : (k : Int) + 1 = ((k + 1 : Nat) : Int) := by omega
    have h2 : ¬ (((k + 1 : Nat) : Int) < 0 ∨ ((k + 1 : Nat) : Int) ≥ (h.length : Int)) := by
      omega
    rw [historyScan]
    simp only [h1, h2, if_false, Int.toNat_ofNat, hno (k + 1) (by omega) (by omega)]
    exact ih (k + 1) f (by omega) (by omega) (fun j hj1 hj2 => hno j (by omega) hj2)

theorem historyScan_back_fuel (h : List QString) (p : QString) :
    ∀ (fuel : Nat) (x : Int), x.toNat < fuel → x ≤ (h.length : Int) →
      historyScan fuel h p (-1) x ≠ .outOfFuel := by
  intro fuel
  induction fuel with
  | zero => intro x hx; omega
  | succ f ih =>
    intro x hx hle
    rw [historyScan]
    by_cases h1 : x + -1 < 0 ∨ x + -1 ≥ (h.length : Int)
    · rw [if_pos h1]; simp
    · simp only [h1, if_false]
      split
      · simp
      · exact ih (x + -1) (by omega) (by omega)

theorem historyScan_fwd_fuel (h : List QString) (p : QString) :
    ∀ (fuel : Nat) (x : Int), 0 < fuel → (h.length : Int) - x ≤ (fuel : Int) →
      historyScan fuel h p 1 x ≠ .outOfFuel := by
  intro fuel
  induction fuel with
  | zero => intro x hx; omega
  | succ f ih =>
    intro x _ hle
    rw [historyScan]
    by_cases h1 : x + 1 < 0 ∨ x + 1 ≥ (h.length : Int)
    · rw [if_pos h1]; simp
    · simp only [h1, if_false]
      split
      · simp
      · exact ih (x + 1) (by omega) (by omega)

/-- The bound `length + 1` that `navigateHistory` passes to `historyScan` is
never exhausted: the loop always ends by finding an entry or by `break`. -/
theorem historyScan_terminates (h : List QString) (p : QString) (delta x : Int)
    (hd : delta = -1 ∨ delta = 1) :
    historyScan (h.length + 1) h p delta x ≠ .outOfFuel := by
  rcases hd with rfl | rfl
  · by_cases hx : x ≤ (h.length : Int)
    · exact historyScan_back_fuel h p _ x (by omega) hx
    · rw [historyScan]
      have : x + -1 < 0 ∨ x + -1 ≥ (h.length : Int) := by omega
      rw [if_pos this]; simp
  · by_cases hx : -1 ≤ x
    · exact historyScan_fwd_fuel h p _ x (by omega) (by push_cast; omega)
    · rw [historyScan]
      have : x + 1 < 0 ∨ x + 1 ≥ (h.length : Int) := by omega
      rw [if_pos this]; simp

/-- C2 (as stated, refuted): on the entries `foo`, `bar`, `faz` with filter `f`,
two steps back select `faz` and then `foo`; the third step back does not exit
browsing: the text is still `foo` and the index is still `0`. -/
theorem navigateHistory_back_exit_counterexample :
    (exampleHistory.navigateHistory (-1)).text = "faz".toList ∧
    ((exampleHistory.navigateHistory (-1)).navigateHistory (-1)).text = "foo".toList ∧
    ((exampleHistory.navigateHistory (-1)).navigateHistory (-1)).historyState_.index_ = 0 ∧
    ¬ ((((exampleHistory.navigateHistory (-1)).navigateHistory (-1)).navigateHistory
          (-1)).text = "f".toList ∧
       (((exampleHistory.navigateHistory (-1)).navigateHistory (-1)).navigateHistory
          (-1)).historyState_.index_ = -1 ∧
       (((exampleHistory.navigateHistory (-1)).navigateHistory (-1)).navigateHistory
          (-1)).historyState_.prefixFilter_ = "f".toList) := by
  decide

/-- C2 (amended): with a non-empty prefix filter, when the widget is browsing
at entry `k` and no earlier entry starts with the filter, `navigateHistory(-1)`
changes nothing: text, history index and prefix filter stay as they are. -/
theorem navigateHistory_back_stays (w : QCommandEdit) (k : Nat)
    (hp : w.historyState_.prefixFilter_ ≠ [])
    (hk : w.historyState_.index_ = (k : Int))
    (hlen : k < w.historyState_.history_.length)
    (hno : ∀ j : Nat, j < k →
      startsWith (w.historyState_.history_.getD j []) w.historyState_.prefixFilter_ = false) :
    w.navigateHistory (-1) = w := by
  have hk1 : ¬ ((k : Int) = -1) := by omega
  have hs := historyScan_back_none w.historyState_.history_ w.historyState_.prefixFilter_ k
    (w.historyState_.history_.length + 1) (by omega) (by omega) hno
  have hd : ¬ ((-1 : Int) = 0) := by decide
  have hd1 : ¬ ((-1 : Int) < -1) := by decide
  have hd2 : ¬ ((-1 : Int) > 1) := by decide
  have hlt : ¬ ((-1 : Int) ≥ (w.historyState_.history_.length : Int)) := by omega
  unfold navigateHistory
  simp only [hd, hd1, hd2, hp, hk, hk1, if_false]
  rw [hs]
  simp only [hlt, if_false]

theorem navigateHistory_back_stays_witness :
    ((exampleHistory.navigateHistory (-1)).navigateHistory (-1)).navigateHistory (-1)
      = (exampleHistory.navigateHistory (-1)).navigateHistory (-1) :=
  navigateHistory_back_stays ((exampleHistory.navigateHistory (-1)).navigateHistory (-1)) 0
    (by decide) (by decide) (by decide) (by decide)

/-- C8: with an empty prefix filter and a non-empty history of `n` entries,
`navigateHistory(-1)` from index none selects entry `n - 1`, from an index
`k > 0` selects entry `k - 1`, and from index `0` leaves the index and the
text (indeed the whole state) unchanged. -/
theorem navigateHistory_back_unfiltered (w : QCommandEdit)
    (hp : w.historyState_.prefixFilter_ = [])
    (hne : w.historyState_.history_ ≠ []) :
    (w.historyState_.index_ = -1 →
      (w.navigateHistory (-1)).historyState_.index_ =
        ((w.historyState_.history_.length - 1 : Nat) : Int) ∧
      (w.navigateHistory (-1)).text =
        w.historyState_.history_.getD (w.historyState_.history_.length - 1) []) ∧
    (∀ k : Nat, 0 < k → k < w.historyState_.history_.length →
      w.historyState_.index_ = (k : Int) →
      (w.navigateHistory (-1)).historyState_.index_ = ((k - 1 : Nat) : Int) ∧
      (w.navigateHistory (-1)).text = w.historyState_.history_.getD (k - 1) []) ∧
    (w.historyState_.index_ = 0 →
      (w.navigateHistory (-1)).historyState_.index_ = w.historyState_.index_ ∧
      (w.navigateHistory (-1)).text = w.text ∧
      w.navigateHistory (-1) = w) := by
  have hd : ¬ ((-1 : Int) = 0) := by decide
  have hd1 : ¬ ((-1 : Int) < -1) := by decide
  have hd2 : ¬ ((-1 : Int) > 1) := by decide
  have hpos : 0 < w.historyState_.history_.length := List.length_pos.mpr hne
  refine ⟨?_, ?_, ?_⟩
  · intro hi
    have e : (w.historyState_.history_.length : Int) + -1 =
        ((w.historyState_.history_.length - 1 : Nat) : Int) := by omega
    have := setHistoryIndex_entry w (w.historyState_.history_.length - 1) (by omega)
    unfold navigateHistory
    simp only [hd, hd1, hd2, hp, hi, if_false, if_true, e]
    rw [this.1, this.2]
    exact ⟨rfl, rfl⟩
  · intro k hk0 hk hi
    have hk1 : ¬ ((k : Int) = -1) := by omega
    have e : (k : Int) + -1 = ((k - 1 : Nat) : Int) := by omega
    have := setHistoryIndex_entry w (k - 1) (by omega)
    unfold navigateHistory
    simp only [hd, hd1, hd2, hp, hi, hk1, if_false, if_true, e]
    rw [this.1, this.2]
    exact ⟨rfl, rfl⟩
  · intro hi
    have e : w.navigateHistory (-1) = w := by
      unfold navigateHistory
      simp only [hd, hd1, hd2, hp, hi, if_false, if_true]
      unfold setHistoryIndex
      simp
    rw [e]
    exact ⟨rfl, rfl, rfl⟩

theorem navigateHistory_back_unfiltered_witness :
    (exampleUnfiltered.navigateHistory (-1)).text = "faz".toList ∧
    ((exampleUnfiltered.navigateHistory (-1)).navigateHistory (-1)).text = "bar".toList ∧
    (((exampleUnfiltered.navigateHistory (-1)).navigateHistory (-1)).navigateHistory
      (-1)).historyState_.index_ = 0 ∧
    ((((exampleUnfiltered.navigateHistory (-1)).navigateHistory (-1)).navigateHistory
      (-1)).navigateHistory (-1)).text = "foo".toList :=
  ⟨((navigateHistory_back_unfiltered exampleUnfiltered (by decide) (by decide)).1
      (by decide)).2,
   ((navigateHistory_back_unfiltered (exampleUnfiltered.navigateHistory (-1)) (by decide)
      (by decide)).2.1 2 (by decide) (by decide) (by decide)).2,
   ((navigateHistory_back_unfiltered
      ((exampleUnfiltered.navigateHistory (-1)).navigateHistory (-1)) (by decide)
      (by decide)).2.1 1 (by decide) (by decide) (by decide)).1,
   ((navigateHistory_back_unfiltered
      (((exampleUnfiltered.navigateHistory (-1)).navigateHistory (-1)).navigateHistory (-1))
      (by decide) (by decide)).2.2 (by decide)).2.1⟩

/-- C10: with a non-empty prefix filter `p`, when the widget is browsing at
index `k` with `0 <= k < len` and no entry after `k` starts with `p`,
`navigateHistory(+1)` sets the text to `p`, the history index to none and
leaves the prefix filter equal to `p`. -/
theorem navigateHistory_forward_exit (w : QCommandEdit)
    (hp : w.historyState_.prefixFilter_ ≠ [])
    (hk : 0 ≤ w.historyState_.index_ ∧
      w.historyState_.index_ < (w.historyState_.history_.length : Int))
    (hno : ∀ j : Nat, j < w.historyState_.history_.length →
      w.historyState_.index_ < (j : Int) →
      startsWith (w.historyState_.history_.getD j []) w.historyState_.prefixFilter_
        = false) :
    (w.navigateHistory 1).text = w.historyState_.prefixFilter_ ∧
    (w.navigateHistory 1).historyState_.index_ = -1 ∧
    (w.navigateHistory 1).historyState_.prefixFilter_ = w.historyState_.prefixFilter_ := by
  have he : ¬ ((1 : Int) = 0) := by decide
  have he1 : ¬ ((1 : Int) < -1) := by decide
  have he2 : ¬ ((1 : Int) > 1) := by decide
  obtain ⟨k, hk1⟩ : ∃ k : Nat, w.historyState_.index_ = (k : Int) :=
    ⟨w.historyState_.index_.toNat, by omega⟩
  have hk2 : ¬ ((k : Int) = -1) := by omega
  obtain ⟨d, hd3⟩ : ∃ d, k + 1 + d = w.historyState_.history_.length :=
    ⟨w.historyState_.history_.length - (k + 1), by omega⟩
  have hs := historyScan_fwd_none w.historyState_.history_ w.historyState_.prefixFilter_ d k
    (w.historyState_.history_.length + 1) hd3 (by omega)
    (fun j hj1 hj2 => hno j hj2 (by omega))
  have hend := setHistoryIndex_end w
  unfold navigateHistory
  simp only [he, he1, he2, hp, hk1, hk2, if_false]
  rw [hs]
  simp only [ge_iff_le, le_refl, if_true]
  rw [hend.1, hend.2]
  simp [HistoryState.reset]

theorem navigateHistory_forward_exit_witness :
    (exampleLast.navigateHistory 1).text = "f".toList ∧
    (exampleLast.navigateHistory 1).historyState_.index_ = -1 ∧
    (exampleLast.navigateHistory 1).historyState_.prefixFilter_ = "f".toList :=
  navigateHistory_forward_exit exampleLast (by decide) (by decide) (by decide)

/-! ## Theorems: completion -/

theorem deliverBufferSignals_blocked (b : Bool) (o : Nat) (w : QCommandEdit)
    (hb : w.signalsBlocked = true) : deliverBufferSignals b o w = w := by
  simp [deliverBufferSignals, hb]

/-- The loop bound passed by `longestCommonPrefix` is enough: any larger bound
gives the same result, so the bounded scan is the inner loop run to its end. -/
theorem lcpScan_fuel (result s : QString) :
    ∀ (fuel j : Nat), min result.length s.length ≤ j + fuel →
      lcpScan (fuel + 1) result s j = lcpScan fuel result s j := by
  intro fuel
  induction fuel with
  | zero =>
    intro j hj
    have : ¬ (j < min result.length s.length) := by omega
    simp [lcpScan, this]
  | succ f ih =>
    intro j hj
    conv_lhs => rw [lcpScan]
    conv_rhs => rw [lcpScan]
    by_cases h1 : j < min result.length s.length
    · by_cases h2 : j = s.length
      · simp only [h1, h2, if_true]
      · by_cases h3 : result.getD j ' ' ≠ s.getD j ' '
        · rw [if_pos h1, if_pos h1, if_neg h2, if_neg h2, if_pos h3, if_pos h3]
        · rw [if_pos h1, if_pos h1, if_neg h2, if_neg h2, if_neg h3, if_neg h3]
          exact ih (j + 1) (by omega)
    · simp only [h1, if_false]

/-- C1 (code evaluated at the failing input): on `foo`, `fo` the function
returns `foo`, which is not a prefix of the second element; the longest common
prefix of the two is `fo`. -/
theorem longestCommonPrefix_shorter_second :
    longestCommonPrefix ["foo".toList, "fo".toList] = "foo".toList ∧
    ¬ IsCommonPrefix ["foo".toList, "fo".toList]
        ( longestCommonPrefix ["foo".toList, "fo".toList]) ∧
    IsLongestCommonPrefix ["foo".toList, "fo".toList] "fo".toList := by
  refine ⟨by decide, ?_, ?_, ?_⟩
  · intro h
    have h2 := h "fo".toList (by simp)
    have h3 := h2.length_le
    have h4 : longestCommonPrefix ["foo".toList, "fo".toList] = "foo".toList := by decide
    rw [h4] at h3
    simp at h3
  · intro s hs
    simp only [List.mem_cons, List.mem_singleton, List.not_mem_nil, or_false] at hs
    rcases hs with rfl | rfl <;> decide
  · intro q hq
    exact (hq "fo".toList (by simp)).length_le

/-- C3 (code evaluated at the failing input): with a request pending and the
single candidate `x`, `setCompletion` inserts `x` but does not reset the
completion model: one empty candidate is stored, `requested_` is still set and
the index is `0`; a later Tab then neither cycles nor asks again. -/
theorem setCompletion_single_candidate :
    (exampleRequest.setCompletion ["x".toList]).text = "fx".toList ∧
    (exampleRequest.setCompletion ["x".toList]).completionState_ =
      { completion_ := [[]], requested_ := true, index_ := 0 } ∧
    (exampleRequest.setCompletion ["x".toList]).completionState_ ≠
      exampleRequest.completionState_.reset ∧
    (exampleRequest.setCompletion ["x".toList]).onTabPressed =
      exampleRequest.setCompletion ["x".toList] := by
  decide

/-- A buffer operation changes the completion model only by resetting it, and
only while signals are not blocked. -/
theorem deliverBufferSignals_eq (b : Bool) (o : Nat) (w : QCommandEdit) :
    ∃ c, deliverBufferSignals b o w = { w with completionState_ := c } ∧
      (c = w.completionState_ ∨
        (w.signalsBlocked = false ∧ c = w.completionState_.reset)) := by
  unfold deliverBufferSignals onSelectionChanged onCursorPositionChanged
  by_cases h1 : w.signalsBlocked = true
  · exact ⟨w.completionState_, by rw [if_pos h1], Or.inl rfl⟩
  · have h1f : w.signalsBlocked = false := by simpa using h1
    rw [if_neg h1]
    by_cases h2 : b = true <;> by_cases h3 : o = w.cursorPosition
    · exact ⟨w.completionState_.reset, by simp [h2, h3], Or.inr ⟨h1f, rfl⟩⟩
    · exact ⟨w.completionState_.reset, by simp [h2, h3, CompletionState.reset],
        Or.inr ⟨h1f, rfl⟩⟩
    · exact ⟨w.completionState_, by simp [h2, h3], Or.inl rfl⟩
    · exact ⟨w.completionState_.reset, by simp [h2, h3], Or.inr ⟨h1f, rfl⟩⟩

theorem setText_eq (w : QCommandEdit) (t : QString) :
    ∃ c, w.setText t =
        { w with text := t, selStart := 0, selEnd := 0, cursorPosition := t.length,
                 completionState_ := c } ∧
      (c = w.completionState_ ∨
        (w.signalsBlocked = false ∧ c = w.completionState_.reset)) := by
  unfold setText
  obtain ⟨c, hc, hd⟩ := deliverBufferSignals_eq w.hasSelectedText w.cursorPosition
    { w with text := t, selStart := 0, selEnd := 0, cursorPosition := t.length }
  exact ⟨c, hc, hd⟩

theorem setCursorPosition_eq (w : QCommandEdit) (pos : Nat) (hp : pos ≤ w.text.length) :
    ∃ c, w.setCursorPosition pos =
        { w with selStart := 0, selEnd := 0, cursorPosition := pos, completionState_ := c } ∧
      (c = w.completionState_ ∨
        (w.signalsBlocked = false ∧ c = w.completionState_.reset)) := by
  unfold setCursorPosition
  rw [if_pos hp]
  obtain ⟨c, hc, hd⟩ := deliverBufferSignals_eq w.hasSelectedText w.cursorPosition
    { w with selStart := 0, selEnd := 0, cursorPosition := pos }
  exact ⟨c, hc, hd⟩

/-- Selecting `length` characters at `start` when nothing is selected and the
span lies inside the text. -/
theorem setSelection_eq (w : QCommandEdit) (start length : Nat)
    (hs : start + length ≤ w.text.length) (h0 : w.selStart = 0) (h1 : w.selEnd = 0) :
    ∃ c, w.setSelection start length =
        { w with
          selStart := if length ≠ 0 then start else 0
          selEnd := if length ≠ 0 then start + length else 0
          cursorPosition := if length ≠ 0 then start + length else w.cursorPosition
          completionState_ := c } ∧
      (c = w.completionState_ ∨
        (w.signalsBlocked = false ∧ c = w.completionState_.reset)) := by
  unfold setSelection
  rw [if_neg (by omega)]
  by_cases hl : length = 0
  · subst hl
    refine ⟨w.completionState_, ?_, Or.inl rfl⟩
    simp [h0, h1]
    cases w
    simp_all
  · have hpos : length > 0 := by omega
    rw [if_pos hpos, if_neg (by omega)]
    have hmin : min (start + length) w.text.length = start + length := by omega
    obtain ⟨c, hc, hd⟩ := deliverBufferSignals_eq true w.cursorPosition
      { w with selStart := start, selEnd := min (start + length) w.text.length,
               cursorPosition := min (start + length) w.text.length }
    refine ⟨c, ?_, hd⟩
    rw [hc]
    simp [hl, hmin]

/-- The three buffer operations of `insertTextAtCursor`, for any split of the
new text into `B`, `txt` and `A`. -/
theorem insert_chain (w : QCommandEdit) (B A txt : QString) (selected : Bool) :
    ∃ c,
      (if selected = true then
          ((w.setText (B ++ txt ++ A)).setCursorPosition (B.length + txt.length)).setSelection
            B.length txt.length
        else (w.setText (B ++ txt ++ A)).setCursorPosition (B.length + txt.length)) =
        { w with
          text := B ++ txt ++ A
          cursorPosition := B.length + txt.length
          selStart := if selected = true ∧ txt ≠ [] then B.length else 0
          selEnd := if selected = true ∧ txt ≠ [] then B.length + txt.length else 0
          completionState_ := c } ∧
      (c = w.completionState_ ∨
        (w.signalsBlocked = false ∧ c = w.completionState_.reset)) := by
  obtain ⟨c1, e1, d1⟩ := setText_eq w (B ++ txt ++ A)
  obtain ⟨c2, e2, d2⟩ := setCursorPosition_eq
    { w with text := B ++ txt ++ A, selStart := 0, selEnd := 0,
             cursorPosition := (B ++ txt ++ A).length, completionState_ := c1 }
    (B.length + txt.length) (by simp only [List.length_append]; omega)
  have hreset : ∀ x y : CompletionState, x.reset = y.reset := fun _ _ => rfl
  have d12 : c2 = w.completionState_ ∨
      (w.signalsBlocked = false ∧ c2 = w.completionState_.reset) := by
    rcases d2 with d2 | ⟨d2, d2'⟩
    · rw [d2]; exact d1
    · exact Or.inr ⟨d2, by rw [d2']; exact hreset _ _⟩
  have h2 : (w.setText (B ++ txt ++ A)).setCursorPosition (B.length + txt.length) =
      { w with text := B ++ txt ++ A, selStart := 0, selEnd := 0,
               cursorPosition := B.length + txt.length, completionState_ := c2 } := by
    rw [e1]; exact e2
  rw [h2]
  cases selected with
  | false =>
    refine ⟨c2, ?_, d12⟩
    rw [if_neg (by decide), if_neg (by simp), if_neg (by simp)]
  | true =>
    obtain ⟨c3, e3, d3⟩ := setSelection_eq
      { w with text := B ++ txt ++ A, selStart := 0, selEnd := 0,
               cursorPosition := B.length + txt.length, completionState_ := c2 }
      B.length txt.length (by simp only [List.length_append]; omega) rfl rfl
    have d123 : c3 = w.completionState_ ∨
        (w.signalsBlocked = false ∧ c3 = w.completionState_.reset) := by
      rcases d3 with d3 | ⟨d3, d3'⟩
      · rw [d3]; exact d12
      · exact Or.inr ⟨d3, by rw [d3']; exact hreset _ _⟩
    refine ⟨c3, ?_, d123⟩
    rw [if_pos rfl, e3]
    by_cases ht : txt = []
    · have hl : ¬ (txt.length ≠ 0) := by simp [ht]
      have hc : ¬ (true = true ∧ txt ≠ []) := by simp [ht]
      rw [if_neg hl, if_neg hl, if_neg hl, if_neg hc, if_neg hc]
    · have hl : txt.length ≠ 0 := by
        intro h; exact ht (List.length_eq_zero.mp h)
      have hc : true = true ∧ txt ≠ [] := ⟨rfl, ht⟩
      rw [if_pos hl, if_pos hl, if_pos hl, if_pos hc, if_pos hc]

/-- The state after `insertTextAtCursor`, for any buffer: the text before the
insertion point, the new text, and the text after the replaced selection. -/
theorem insertTextAtCursor_eq (w : QCommandEdit) (txt : QString) (selected : Bool) :
    ∃ c, w.insertTextAtCursor txt selected =
        { w with
          text := w.text.take (insertionPoint w) ++ txt ++
            w.text.drop (insertionPoint w + w.selectedText.length)
          cursorPosition := (w.text.take (insertionPoint w)).length + txt.length
          selStart :=
            if selected = true ∧ txt ≠ [] then (w.text.take (insertionPoint w)).length else 0
          selEnd :=
            if selected = true ∧ txt ≠ [] then
              (w.text.take (insertionPoint w)).length + txt.length
            else 0
          completionState_ := c } ∧
      (c = w.completionState_ ∨
        (w.signalsBlocked = false ∧ c = w.completionState_.reset)) :=
  insert_chain w (w.text.take (insertionPoint w))
    (w.text.drop (insertionPoint w + w.selectedText.length)) txt selected

/-- The state after `setCurrentCompletion`, for any buffer: the insertion is
done with signals blocked, so only the buffer and the ghost suffix change. -/
theorem setCurrentCompletion_eq (w : QCommandEdit) (s : QString) :
    ∃ g, w.setCurrentCompletion s =
        { w with
          text := w.text.take (insertionPoint w) ++ s ++
            w.text.drop (insertionPoint w + w.selectedText.length)
          cursorPosition := (w.text.take (insertionPoint w)).length + s.length
          selStart := if s ≠ [] then (w.text.take (insertionPoint w)).length else 0
          selEnd := if s ≠ [] then (w.text.take (insertionPoint w)).length + s.length else 0
          ghostSuffix_ := g } := by
  obtain ⟨c, e, d⟩ := insertTextAtCursor_eq (w.blockSignals true) s true
  have hc : c = w.completionState_ := by
    rcases d with d | ⟨d, _⟩
    · exact d
    · exact absurd d (by simp [blockSignals])
  subst hc
  obtain ⟨g, hg⟩ := searchGhost_cases
    (blockSignals (insertTextAtCursor (w.blockSignals true) s true) w.signalsBlocked)
  refine ⟨g, ?_⟩
  have hu : w.setCurrentCompletion s =
      (blockSignals (insertTextAtCursor (w.blockSignals true) s true)
        w.signalsBlocked).searchMatchingHistoryAndShowGhost := rfl
  rw [hu, hg, e]
  by_cases hs : s = []
  · have h1 : ¬ (true = true ∧ s ≠ []) := by simp [hs]
    have h2 : ¬ (s ≠ []) := by simp [hs]
    rw [if_neg h1, if_neg h1, if_neg h2, if_neg h2]
    rfl
  · have h1 : true = true ∧ s ≠ [] := ⟨rfl, hs⟩
    rw [if_pos h1, if_pos h1, if_pos hs, if_pos hs]
    rfl

/-- What is selected is a part of the text: the text is the part before the
insertion point, the selected text, and the rest. -/
theorem text_split (w : QCommandEdit) :
    w.text.take (insertionPoint w) ++ w.selectedText ++
      w.text.drop (insertionPoint w + w.selectedText.length) = w.text := by
  unfold insertionPoint selectedText
  by_cases h : w.hasSelectedText = true
  · simp only [h, if_true]
    rw [List.append_assoc]
    conv_rhs => rw [← List.take_append_drop w.selStart w.text]
    congr 1
    conv_rhs => rw [← List.take_append_drop (w.selEnd - w.selStart) (w.text.drop w.selStart)]
    congr 1
    rw [List.drop_drop, List.length_take, List.length_drop]
    by_cases h2 : w.selEnd - w.selStart ≤ w.text.length - w.selStart
    · rw [min_eq_left h2, Nat.add_comm]
    · have h3 : w.text.length - w.selStart ≤ w.selEnd - w.selStart := by omega
      rw [min_eq_right h3]
      rw [List.drop_eq_nil_of_le (by omega), List.drop_eq_nil_of_le (by omega)]
  · have h' : w.hasSelectedText = false := by simpa using h
    simp [h']

theorem selectedText_length (w : QCommandEdit) (hsel : w.selEnd ≤ w.text.length) :
    w.selectedText.length = if w.hasSelectedText then w.selEnd - w.selStart else 0 := by
  unfold selectedText
  by_cases h : w.hasSelectedText = true
  · simp only [h, if_true, List.length_take, List.length_drop]
    omega
  · have h' : w.hasSelectedText = false := by simpa using h
    simp [h']

theorem insertionPoint_le (w : QCommandEdit) (hcur : w.cursorPosition ≤ w.text.length)
    (hsel : w.selEnd ≤ w.text.length) : insertionPoint w ≤ w.text.length := by
  unfold insertionPoint
  by_cases h : w.hasSelectedText = true
  · have : w.selStart < w.selEnd := by simpa [hasSelectedText] using h
    simp only [h, if_true]
    omega
  · have h' : w.hasSelectedText = false := by simpa using h
    simp only [h', Bool.false_eq_true, if_false]
    exact hcur

/-- C14: for a buffer whose cursor and selection lie inside the text, with
`c` the selection start if something is selected and the cursor otherwise, and
`k` the length of the selection (or `0`): after `insertTextAtCursor(txt,
selected)` the text is `T[0,c) ++ txt ++ T[c+k, end)`, the cursor is at
`c + |txt|`, and the selection is exactly the inserted span when `selected` is
set and `txt` is non-empty, and empty otherwise. -/
theorem insertTextAtCursor_effect (w : QCommandEdit) (txt : QString) (selected : Bool)
    (hcur : w.cursorPosition ≤ w.text.length) (hsel : w.selEnd ≤ w.text.length) :
    (w.insertTextAtCursor txt selected).text =
      w.text.take (insertionPoint w) ++ txt ++
        w.text.drop
          (insertionPoint w + (if w.hasSelectedText then w.selEnd - w.selStart else 0)) ∧
    (w.insertTextAtCursor txt selected).cursorPosition = insertionPoint w + txt.length ∧
    (selected = true ∧ txt ≠ [] →
      (w.insertTextAtCursor txt selected).hasSelectedText = true ∧
      (w.insertTextAtCursor txt selected).selStart = insertionPoint w ∧
      (w.insertTextAtCursor txt selected).selEnd = insertionPoint w + txt.length ∧
      (w.insertTextAtCursor txt selected).selectedText = txt) ∧
    (¬ (selected = true ∧ txt ≠ []) →
      (w.insertTextAtCursor txt selected).hasSelectedText = false) := by
  obtain ⟨c, e, _⟩ := insertTextAtCursor_eq w txt selected
  have hlen := selectedText_length w hsel
  have hip := insertionPoint_le w hcur hsel
  have htake : (w.text.take (insertionPoint w)).length = insertionPoint w := by
    rw [List.length_take]; omega
  rw [e, hlen, htake]
  refine ⟨rfl, rfl, ?_, ?_⟩
  · intro hc
    have hpos : 0 < txt.length := List.length_pos.mpr hc.2
    simp only [if_pos hc]
    refine ⟨by simp [hasSelectedText, hpos], trivial, trivial, ?_⟩
    unfold selectedText
    have hs : hasSelectedText
        { w with
          text := w.text.take (insertionPoint w) ++ txt ++
            w.text.drop
              (insertionPoint w + (if w.hasSelectedText then w.selEnd - w.selStart else 0))
          cursorPosition := insertionPoint w + txt.length
          selStart := insertionPoint w
          selEnd := insertionPoint w + txt.length
          completionState_ := c } = true := by
      simp [hasSelectedText, hpos]
    rw [if_pos hs]
    simp only [List.append_assoc, Nat.add_sub_cancel_left]
    rw [List.drop_append_of_le_length (by omega), List.drop_eq_nil_of_le (by omega)]
    simp
  · intro hc
    simp [if_neg hc, hasSelectedText]

theorem insertTextAtCursor_effect_witness :
    (exampleSelection.insertTextAtCursor "xy".toList true).text = "axyc".toList ∧
    (exampleSelection.insertTextAtCursor "xy".toList true).cursorPosition = 3 ∧
    (exampleSelection.insertTextAtCursor "xy".toList true).selectedText = "xy".toList :=
  have h := insertTextAtCursor_effect exampleSelection "xy".toList true (by decide) (by decide)
  ⟨h.1, h.2.1, (h.2.2.1 (by decide)).2.2.2⟩

theorem selectedText_of_span (w : QCommandEdit) (B A s : QString)
    (ht : w.text = B ++ s ++ A)
    (h1 : w.selStart = if s ≠ [] then B.length else 0)
    (h2 : w.selEnd = if s ≠ [] then B.length + s.length else 0) :
    w.selectedText = s := by
  unfold selectedText hasSelectedText
  by_cases hs : s = []
  · subst hs
    simp [h1, h2]
  · have hpos : 0 < s.length := List.length_pos.mpr hs
    rw [h1, h2, if_pos hs, if_pos hs, ht]
    simp [hpos]

/-- C13: for `delta` in `{-1, +1}`, if `index + delta` lies outside
`[0, len(candidates))` then `navigateCompletion(delta)` changes nothing;
otherwise the completion index becomes `index + delta`, the candidate list is
kept, and `candidates[index + delta]` is inserted at the insertion point as
the selected text. -/
theorem navigateCompletion_effect (w : QCommandEdit) (delta : Int)
    (hd : delta = -1 ∨ delta = 1) :
    ((w.completionState_.index_ + delta < 0 ∨
        w.completionState_.index_ + delta ≥ (w.completionState_.completion_.length : Int)) →
      w.navigateCompletion delta = w) ∧
    (0 ≤ w.completionState_.index_ + delta →
      w.completionState_.index_ + delta < (w.completionState_.completion_.length : Int) →
      (w.navigateCompletion delta).completionState_.index_ =
        w.completionState_.index_ + delta ∧
      (w.navigateCompletion delta).completionState_.completion_ =
        w.completionState_.completion_ ∧
      (w.navigateCompletion delta).text =
        w.text.take (insertionPoint w) ++
          w.completionState_.completion_.getD (w.completionState_.index_ + delta).toNat [] ++
          w.text.drop (insertionPoint w + w.selectedText.length) ∧
      (w.navigateCompletion delta).cursorPosition =
        (w.text.take (insertionPoint w)).length +
          (w.completionState_.completion_.getD
            (w.completionState_.index_ + delta).toNat []).length ∧
      (w.navigateCompletion delta).selectedText =
        w.completionState_.completion_.getD (w.completionState_.index_ + delta).toNat []) := by
  have h0 : ¬ (delta = 0) := by omega
  have h1 : ¬ (delta < -1) := by omega
  have h2 : ¬ (delta > 1) := by omega
  constructor
  · intro hout
    unfold navigateCompletion
    simp only [h0, h1, h2, if_false]
    rw [if_pos hout]
  · intro hlo hhi
    have hin : ¬ (w.completionState_.index_ + delta < 0 ∨
        w.completionState_.index_ + delta ≥ (w.completionState_.completion_.length : Int)) := by
      omega
    obtain ⟨g, hg⟩ := setCurrentCompletion_eq
      { w with completionState_ :=
          { w.completionState_ with index_ := w.completionState_.index_ + delta } }
      (w.completionState_.completion_.getD (w.completionState_.index_ + delta).toNat [])
    have hu : w.navigateCompletion delta =
        setCurrentCompletion
          { w with completionState_ :=
              { w.completionState_ with index_ := w.completionState_.index_ + delta } }
          (w.completionState_.completion_.getD
            (w.completionState_.index_ + delta).toNat []) := by
      unfold navigateCompletion
      simp only [h0, h1, h2, if_false]
      rw [if_neg hin]
    rw [hu, hg]
    refine ⟨rfl, rfl, rfl, rfl, ?_⟩
    exact selectedText_of_span _ _ _ _ rfl rfl rfl

theorem navigateCompletion_effect_witness :
    (exampleCycling.navigateCompletion 1).completionState_.index_ = 1 ∧
    (exampleCycling.navigateCompletion 1).text = "fop".toList ∧
    (exampleCycling.navigateCompletion 1).selectedText = "p".toList ∧
    (exampleCycling.navigateCompletion 1).navigateCompletion 1 =
      exampleCycling.navigateCompletion 1 :=
  have h := (navigateCompletion_effect exampleCycling 1 (Or.inr rfl)).2
    (by decide) (by decide)
  ⟨h.1, h.2.2.1, h.2.2.2.2,
   (navigateCompletion_effect (exampleCycling.navigateCompletion 1) 1 (Or.inr rfl)).1
     (by decide)⟩

/-- The state after `cancelCompletion` when something is selected: the
selected text is removed, the cursor is where it began, nothing is selected,
and the completion model is reset. -/
theorem cancelCompletion_eq (w : QCommandEdit) (hs : w.hasSelectedText = true) :
    ∃ g, w.cancelCompletion =
        { w with
          text := w.text.take (insertionPoint w) ++
            w.text.drop (insertionPoint w + w.selectedText.length)
          cursorPosition := (w.text.take (insertionPoint w)).length
          selStart := 0
          selEnd := 0
          ghostSuffix_ := g
          completionState_ := w.completionState_.reset } := by
  obtain ⟨g, hg⟩ := setCurrentCompletion_eq w []
  refine ⟨g, ?_⟩
  unfold cancelCompletion
  rw [if_pos hs]
  simp only []
  rw [hg]
  simp [CompletionState.reset]

/-- C12 (as stated, refuted): with `b` selected in `abc`, inserting `x` as
selected text and cancelling at once leaves the text `ac` with the cursor at
`1`, not the text `abc` with the cursor at `2`. -/
theorem insert_cancel_counterexample :
    ((exampleSelection.insertTextAtCursor "x".toList true).cancelCompletion).text =
      "ac".toList ∧
    ((exampleSelection.insertTextAtCursor "x".toList true).cancelCompletion).cursorPosition
      = 1 ∧
    ¬ (((exampleSelection.insertTextAtCursor "x".toList true).cancelCompletion).text =
        exampleSelection.text ∧
       ((exampleSelection.insertTextAtCursor "x".toList true).cancelCompletion).cursorPosition
        = exampleSelection.cursorPosition) := by
  decide

/-- C12 (amended): for every buffer in which nothing is selected and the
cursor lies inside the text, and every string `txt`,
`insertTextAtCursor(txt, true)` followed at once by `cancelCompletion` leaves
the text and the cursor position as they were before the insertion. -/
theorem insert_cancel_roundtrip (w : QCommandEdit) (txt : QString)
    (hsel : w.hasSelectedText = false) (hcur : w.cursorPosition ≤ w.text.length) :
    ((w.insertTextAtCursor txt true).cancelCompletion).text = w.text ∧
    ((w.insertTextAtCursor txt true).cancelCompletion).cursorPosition = w.cursorPosition := by
  obtain ⟨c, e, _⟩ := insertTextAtCursor_eq w txt true
  have hip : insertionPoint w = w.cursorPosition := by simp [insertionPoint, hsel]
  have hst : w.selectedText = [] := by simp [selectedText, hsel]
  have htake : (w.text.take w.cursorPosition).length = w.cursorPosition := by
    rw [List.length_take]; omega
  rw [hip, hst, htake, List.length_nil, Nat.add_zero] at e
  by_cases ht : txt = []
  · subst ht
    have hc : ¬ (true = true ∧ ([] : QString) ≠ []) := by simp
    rw [if_neg hc, if_neg hc] at e
    rw [e]
    have hns : hasSelectedText
        { w with
          text := w.text.take w.cursorPosition ++ [] ++ w.text.drop w.cursorPosition
          cursorPosition := w.cursorPosition + ([] : QString).length
          selStart := 0
          selEnd := 0
          completionState_ := c } = false := by
      simp [hasSelectedText]
    unfold cancelCompletion
    rw [hns]
    simp
  · have hc : true = true ∧ txt ≠ [] := ⟨rfl, ht⟩
    have hpos : 0 < txt.length := List.length_pos.mpr ht
    rw [if_pos hc, if_pos hc] at e
    rw [e]
    have hs : hasSelectedText
        { w with
          text := w.text.take w.cursorPosition ++ txt ++ w.text.drop w.cursorPosition
          cursorPosition := w.cursorPosition + txt.length
          selStart := w.cursorPosition
          selEnd := w.cursorPosition + txt.length
          completionState_ := c } = true := by
      simp [hasSelectedText, hpos]
    obtain ⟨g, hg⟩ := cancelCompletion_eq _ hs
    rw [hg]
    have hst2 := selectedText_of_span
      { w with
        text := w.text.take w.cursorPosition ++ txt ++ w.text.drop w.cursorPosition
        cursorPosition := w.cursorPosition + txt.length
        selStart := w.cursorPosition
        selEnd := w.cursorPosition + txt.length
        completionState_ := c }
      (w.text.take w.cursorPosition) (w.text.drop w.cursorPosition) txt rfl
      (by rw [if_pos ht, htake]) (by rw [if_pos ht, htake])
    have hip2 : insertionPoint
        { w with
          text := w.text.take w.cursorPosition ++ txt ++ w.text.drop w.cursorPosition
          cursorPosition := w.cursorPosition + txt.length
          selStart := w.cursorPosition
          selEnd := w.cursorPosition + txt.length
          completionState_ := c } = w.cursorPosition := by
      unfold insertionPoint
      rw [hs]
      rfl
    rw [hst2, hip2]
    simp only [List.append_assoc]
    have h1 : (w.text.take w.cursorPosition ++ (txt ++ w.text.drop w.cursorPosition)).take
        w.cursorPosition = w.text.take w.cursorPosition := by
      rw [List.take_append_of_le_length (by omega), List.take_take, min_self]
    have h2 : (w.text.take w.cursorPosition ++ (txt ++ w.text.drop w.cursorPosition)).drop
        (w.cursorPosition + txt.length) = w.text.drop w.cursorPosition := by
      rw [← List.append_assoc, List.drop_append_of_le_length
        (by simp only [List.length_append]; omega)]
      rw [List.drop_eq_nil_of_le (by simp only [List.length_append]; omega)]
      rfl
    rw [h1, h2, htake]
    exact ⟨List.take_append_drop _ _, rfl⟩

theorem insert_cancel_roundtrip_witness :
    ((exampleRequest.insertTextAtCursor "oo".toList true).cancelCompletion).text =
      "f".toList ∧
    ((exampleRequest.insertTextAtCursor "oo".toList true).cancelCompletion).cursorPosition
      = 1 :=
  insert_cancel_roundtrip exampleRequest "oo".toList (by decide) (by decide)

/-- The state after `acceptCompletion` when something is selected: the text
is kept, the cursor stands after the formerly selected text, nothing is
selected and the completion model is reset. -/
theorem acceptCompletion_eq (w : QCommandEdit) (hs : w.hasSelectedText = true) :
    ∃ g, w.acceptCompletion =
        { w with
          cursorPosition := (w.text.take (insertionPoint w)).length + w.selectedText.length
          selStart := 0
          selEnd := 0
          ghostSuffix_ := g
          completionState_ := w.completionState_.reset } := by
  obtain ⟨g1, hg1⟩ := cancelCompletion_eq w hs
  have hu : w.acceptCompletion =
      searchMatchingHistoryAndShowGhost
        { setCursorPosition
            (setText w.cancelCompletion
              (w.cancelCompletion.text.take w.cancelCompletion.cursorPosition ++
                w.selectedText ++
                w.cancelCompletion.text.drop w.cancelCompletion.cursorPosition))
            (w.cancelCompletion.cursorPosition + w.selectedText.length) with
          completionState_ :=
            (setCursorPosition
              (setText w.cancelCompletion
                (w.cancelCompletion.text.take w.cancelCompletion.cursorPosition ++
                  w.selectedText ++
                  w.cancelCompletion.text.drop w.cancelCompletion.cursorPosition))
              (w.cancelCompletion.cursorPosition + w.selectedText.length)).completionState_.reset
        } := by
    unfold acceptCompletion
    rw [if_pos hs]
  have hT : w.cancelCompletion.text.take w.cancelCompletion.cursorPosition ++
      w.selectedText ++ w.cancelCompletion.text.drop w.cancelCompletion.cursorPosition
      = w.text := by
    have htxt : w.cancelCompletion.text =
        w.text.take (insertionPoint w) ++
          w.text.drop (insertionPoint w + w.selectedText.length) :=
      congrArg QCommandEdit.text hg1
    have hcur : w.cancelCompletion.cursorPosition =
        (w.text.take (insertionPoint w)).length :=
      congrArg QCommandEdit.cursorPosition hg1
    rw [htxt, hcur, List.take_left' rfl, List.drop_left' rfl]
    exact text_split w
  have hP : w.cancelCompletion.cursorPosition =
      (w.text.take (insertionPoint w)).length :=
    congrArg QCommandEdit.cursorPosition hg1
  rw [hT, hP] at hu
  obtain ⟨c1, e1, _⟩ := setText_eq w.cancelCompletion w.text
  have hlen : (w.text.take (insertionPoint w)).length + w.selectedText.length ≤
      w.text.length := by
    have := congrArg List.length (text_split w)
    simp only [List.length_append] at this
    omega
  obtain ⟨c2, e2, _⟩ := setCursorPosition_eq
    { w.cancelCompletion with
      text := w.text, selStart := 0, selEnd := 0, cursorPosition := w.text.length,
      completionState_ := c1 }
    ((w.text.take (insertionPoint w)).length + w.selectedText.length) hlen
  rw [e1, e2] at hu
  obtain ⟨g, hg⟩ := searchGhost_cases
    { w with
      cursorPosition := (w.text.take (insertionPoint w)).length + w.selectedText.length
      selStart := 0
      selEnd := 0
      ghostSuffix_ := g1
      completionState_ := w.completionState_.reset }
  refine ⟨g, ?_⟩
  rw [hu, hg1]
  exact hg

/-- C15: on `onReturnPressed`, an empty text changes nothing and emits
nothing; a non-empty text with a non-empty selection emits nothing, keeps the
text, drops the selection with the cursor right after the formerly selected
span, and resets the completion model; a non-empty text with nothing selected
emits exactly one `execute` carrying the text and changes nothing else. -/
theorem onReturnPressed_effect (w : QCommandEdit) :
    (w.text = [] → w.onReturnPressed = w) ∧
    (w.text ≠ [] → w.hasSelectedText = true → w.selEnd ≤ w.text.length →
      w.onReturnPressed.emitted = w.emitted ∧
      w.onReturnPressed.text = w.text ∧
      w.onReturnPressed.hasSelectedText = false ∧
      w.onReturnPressed.cursorPosition = w.selEnd ∧
      w.onReturnPressed.completionState_ =
        { completion_ := [], requested_ := false, index_ := -1 }) ∧
    (w.text ≠ [] → w.hasSelectedText = false →
      w.onReturnPressed = { w with emitted := w.emitted ++ [HostSignal.execute w.text] }) := by
  refine ⟨?_, ?_, ?_⟩
  · intro h
    unfold onReturnPressed
    rw [if_pos h]
  · intro h hs hle
    obtain ⟨g, hg⟩ := acceptCompletion_eq w hs
    have hlt : w.selStart < w.selEnd := by simpa [hasSelectedText] using hs
    have hip : insertionPoint w = w.selStart := by simp [insertionPoint, hs]
    have hlen := selectedText_length w hle
    have hu : w.onReturnPressed = w.acceptCompletion := by
      unfold onReturnPressed
      rw [if_neg h, if_pos hs]
    rw [hu, hg, hip, hlen, hs]
    refine ⟨rfl, rfl, by simp [hasSelectedText], ?_, rfl⟩
    simp only [if_true, List.length_take]
    omega
  · intro h hs
    unfold onReturnPressed
    rw [if_neg h, hs]
    rfl

theorem onReturnPressed_effect_witness :
    exampleCycling.onReturnPressed.emitted = [] ∧
    exampleCycling.onReturnPressed.text = "foo".toList ∧
    exampleCycling.onReturnPressed.cursorPosition = 3 ∧
    exampleCycling.onReturnPressed.onReturnPressed.emitted =
      [HostSignal.execute "foo".toList] :=
  have h := (onReturnPressed_effect exampleCycling).2.1 (by decide) (by decide) (by decide)
  ⟨h.1, h.2.1, h.2.2.2.1,
   congrArg QCommandEdit.emitted
     ((onReturnPressed_effect exampleCycling.onReturnPressed).2.2 (by decide) (by decide))⟩

/-! ## Theorems: ghost suggestion and event handlers -/

theorem ghostLoop_none (h : List QString) (t : QString) :
    ∀ k, (∀ i, i < k → startsWith (h.getD i []) t = false) → ghostLoop h t k = none := by
  intro k
  induction k with
  | zero => intro _; rfl
  | succ k ih =>
    intro hno
    rw [ghostLoop, hno k (Nat.lt_succ_self k)]
    exact ih (fun i hi => hno i (by omega))

theorem ghostLoop_found (h : List QString) (t : QString) (j : Nat)
    (hm : startsWith (h.getD j []) t = true) :
    ∀ k, j < k → (∀ i, i < k → j < i → startsWith (h.getD i []) t = false) →
      ghostLoop h t k = some ((h.getD j []).drop t.length) := by
  intro k
  induction k with
  | zero => intro hj; omega
  | succ k ih =>
    intro hj hno
    rw [ghostLoop]
    by_cases hjk : j = k
    · subst hjk
      rw [hm]
      rfl
    · rw [hno k (Nat.lt_succ_self k) (by omega)]
      exact ih (by omega) (fun i hi1 hi2 => hno i (by omega) hi2)

/-- The ghost suffix after the recomputation depends only on what the search
finds: the suffix found, or the empty string. -/
theorem searchGhost_ghostSuffix (w : QCommandEdit) :
    w.searchMatchingHistoryAndShowGhost.ghostSuffix_ =
      (if w.text ≠ [] ∧ w.showMatchingHistory_ = true then
        ghostLoop w.historyState_.history_ w.text w.historyState_.history_.length
       else none).getD [] := by
  unfold searchMatchingHistoryAndShowGhost
  generalize (if w.text ≠ [] ∧ w.showMatchingHistory_ = true then
      ghostLoop w.historyState_.history_ w.text w.historyState_.history_.length
    else none) = found
  cases found with
  | some g => rfl
  | none =>
    by_cases h : w.ghostSuffix_ ≠ []
    · simp [h]
    · have h' : w.ghostSuffix_ = [] := by simpa using h
      simp [h']

/-- C11: after `searchMatchingHistoryAndShowGhost`, if suggestions are on, the
text `t` is non-empty and entry `j` is the last entry that starts with `t`,
the ghost suffix is that entry without its first `|t|` characters; if
suggestions are off, or the text is empty, or no entry starts with the text,
the ghost suffix is empty. A text edit with the cursor at the end of the text
leaves the same ghost suffix as this recomputation. -/
theorem ghost_recomputed (w : QCommandEdit) :
    (∀ j : Nat, j < w.historyState_.history_.length →
      w.showMatchingHistory_ = true → w.text ≠ [] →
      startsWith (w.historyState_.history_.getD j []) w.text = true →
      (∀ i : Nat, i < w.historyState_.history_.length → j < i →
        startsWith (w.historyState_.history_.getD i []) w.text = false) →
      w.searchMatchingHistoryAndShowGhost.ghostSuffix_ =
        (w.historyState_.history_.getD j []).drop w.text.length) ∧
    ((w.showMatchingHistory_ = false ∨ w.text = [] ∨
        ∀ j : Nat, j < w.historyState_.history_.length →
          startsWith (w.historyState_.history_.getD j []) w.text = false) →
      w.searchMatchingHistoryAndShowGhost.ghostSuffix_ = []) ∧
    (w.cursorPosition = w.text.length →
      w.onTextEdited.ghostSuffix_ = w.searchMatchingHistoryAndShowGhost.ghostSuffix_) := by
  refine ⟨?_, ?_, ?_⟩
  · intro j hj hshow ht hm hlast
    rw [searchGhost_ghostSuffix, if_pos ⟨ht, hshow⟩,
      ghostLoop_found _ _ j hm _ hj hlast]
    rfl
  · intro h
    rw [searchGhost_ghostSuffix]
    rcases h with h | h | h
    · rw [if_neg (by simp [h])]
      rfl
    · rw [if_neg (by simp [h])]
      rfl
    · by_cases hc : w.text ≠ [] ∧ w.showMatchingHistory_ = true
      · rw [if_pos hc, ghostLoop_none _ _ _ h]
        rfl
      · rw [if_neg hc]
        rfl
  · intro hc
    have hu : w.onTextEdited =
        searchMatchingHistoryAndShowGhost
          { w.resetCompletion with
            historyState_ := { w.historyState_ with prefixFilter_ := w.text } } := by
      unfold onTextEdited
      simp only []
      rw [if_pos (by exact hc)]
      rfl
    rw [hu, searchGhost_ghostSuffix, searchGhost_ghostSuffix]
    rfl

theorem ghost_recomputed_witness :
    exampleGhost.onTextEdited.ghostSuffix_ = " bar".toList :=
  ((ghost_recomputed exampleGhost).2.2 (by decide)).trans
    ((ghost_recomputed exampleGhost).1 0 (by decide) (by decide) (by decide) (by decide)
      (by decide))

/-- The recomputation changes the ghost suffix and nothing else. -/
theorem searchGhost_eq (w : QCommandEdit) :
    w.searchMatchingHistoryAndShowGhost =
      { w with
        ghostSuffix_ :=
          (if w.text ≠ [] ∧ w.showMatchingHistory_ = true then
            ghostLoop w.historyState_.history_ w.text w.historyState_.history_.length
           else none).getD [] } := by
  obtain ⟨g, hg⟩ := searchGhost_cases w
  have h := searchGhost_ghostSuffix w
  rw [hg] at h ⊢
  have hg2 : g = (if w.text ≠ [] ∧ w.showMatchingHistory_ = true then
      ghostLoop w.historyState_.history_ w.text w.historyState_.history_.length
    else none).getD [] := h
  rw [← hg2]

/-- The state after `clear`. -/
theorem clear_eq (w : QCommandEdit) :
    w.clear =
      { w with
        text := []
        cursorPosition := 0
        selStart := 0
        selEnd := 0
        ghostSuffix_ := []
        historyState_ := w.historyState_.reset
        completionState_ := { completion_ := [], requested_ := false, index_ := -1 } } := by
  obtain ⟨c, e, _⟩ := setText_eq w []
  unfold clear
  simp only []
  rw [e]
  rfl

/-- C16 (as stated, refuted): after a Tab on the empty line a request is
pending; Escape on that empty line emits `escape` and also runs `clear`, which
resets the completion model, so the completion model is not left unchanged. -/
theorem onEscapePressed_empty_counterexample :
    QCommandEdit.init.onTabPressed.text = [] ∧
    QCommandEdit.init.onTabPressed.completionState_.requested_ = true ∧
    QCommandEdit.init.onTabPressed.onEscapePressed.completionState_.requested_ = false ∧
    ¬ (QCommandEdit.init.onTabPressed.onEscapePressed.completionState_ =
        QCommandEdit.init.onTabPressed.completionState_) := by
  decide

/-- C16 (amended): `onEscapePressed` emits `escape` iff the text is empty (one
event appended when it is empty, none otherwise); when the text is empty,
nothing can be selected and `clear` runs as well: the text stays empty, the
ghost suffix is emptied, the history model is reset (index none, prefix filter
empty, entries kept) and the completion model is reset. -/
theorem onEscapePressed_effect (w : QCommandEdit) :
    (w.text = [] → w.onEscapePressed.emitted = w.emitted ++ [HostSignal.escape]) ∧
    (w.text ≠ [] → w.onEscapePressed.emitted = w.emitted) ∧
    (w.text = [] → w.selEnd ≤ w.text.length →
      w.onEscapePressed.text = [] ∧
      w.onEscapePressed.ghostSuffix_ = [] ∧
      w.onEscapePressed.historyState_ =
        { history_ := w.historyState_.history_, index_ := -1, prefixFilter_ := [] } ∧
      w.onEscapePressed.completionState_ =
        { completion_ := [], requested_ := false, index_ := -1 }) := by
  have key : ∀ v : QCommandEdit,
      (if v.hasSelectedText = true then v.cancelCompletion else v.clear).emitted
        = v.emitted := by
    intro v
    by_cases hs : v.hasSelectedText = true
    · obtain ⟨g, hg⟩ := cancelCompletion_eq v hs
      rw [if_pos hs, hg]
    · rw [if_neg hs, clear_eq]
  refine ⟨?_, ?_, ?_⟩
  · intro ht
    unfold onEscapePressed
    simp only []
    rw [if_pos ht, key]
  · intro ht
    unfold onEscapePressed
    simp only []
    rw [if_neg ht, key]
  · intro ht hle
    have hns : ¬ (hasSelectedText
        { w with emitted := w.emitted ++ [HostSignal.escape] } = true) := by
      rw [ht] at hle
      simp only [List.length_nil, Nat.le_zero_eq] at hle
      simp [hasSelectedText, hle]
    have hu : w.onEscapePressed =
        clear { w with emitted := w.emitted ++ [HostSignal.escape] } := by
      unfold onEscapePressed
      simp only []
      rw [if_pos ht, if_neg hns]
    rw [hu, clear_eq]
    exact ⟨rfl, rfl, rfl, rfl⟩

theorem onEscapePressed_effect_witness :
    QCommandEdit.init.onTabPressed.onEscapePressed.emitted =
      [HostSignal.askCompletion [] 0, HostSignal.escape] ∧
    QCommandEdit.init.onTabPressed.onEscapePressed.completionState_ =
      { completion_ := [], requested_ := false, index_ := -1 } :=
  ⟨(onEscapePressed_effect QCommandEdit.init.onTabPressed).1 (by decide),
   ((onEscapePressed_effect QCommandEdit.init.onTabPressed).2.2 (by decide)
      (by decide)).2.2.2⟩

/-- C18: after `setHistory(h)` the entries are `h`, the index is none and the
prefix filter is empty; if the widget was not browsing the text is
unchanged, and if it was browsing the text and the ghost suffix are emptied
and the completion model is reset. -/
theorem setHistory_effect (w : QCommandEdit) (h : List QString) :
    (w.setHistory h).historyState_ = { history_ := h, index_ := -1, prefixFilter_ := [] } ∧
    (w.historyState_.index_ = -1 → (w.setHistory h).text = w.text) ∧
    (w.historyState_.index_ ≠ -1 →
      (w.setHistory h).text = [] ∧
      (w.setHistory h).ghostSuffix_ = [] ∧
      (w.setHistory h).completionState_ =
        { completion_ := [], requested_ := false, index_ := -1 }) := by
  refine ⟨?_, ?_, ?_⟩
  · unfold setHistory
    rfl
  · intro hi
    unfold setHistory
    simp only []
    rw [if_neg (by simp [hi])]
  · intro hi
    unfold setHistory
    simp only []
    rw [if_pos hi, clear_eq]
    exact ⟨rfl, rfl, rfl⟩

/-- C19: for `i < 0` or `i > len(entries)`, `setHistoryIndex(i)` returns
without changing anything. -/
theorem setHistoryIndex_out_of_range (w : QCommandEdit) (i : Int)
    (hi : i < 0 ∨ i > (w.historyState_.history_.length : Int)) :
    w.setHistoryIndex i = w := by
  unfold setHistoryIndex
  rw [if_pos hi]

theorem setHistoryIndex_out_of_range_witness :
    exampleBrowsing.setHistoryIndex 4 = exampleBrowsing ∧
    exampleBrowsing.setHistoryIndex (-1) = exampleBrowsing :=
  ⟨setHistoryIndex_out_of_range exampleBrowsing 4 (by decide),
   setHistoryIndex_out_of_range exampleBrowsing (-1) (by decide)⟩

/-- C20: `onSelectionChanged`, `onCursorPositionChanged` and `onTextEdited`
each leave the completion model reset, whatever it was, and handling the same
event a second time changes nothing; `onTextEdited` also sets the prefix
filter to the text. -/
theorem host_events_reset_completion (w : QCommandEdit) :
    (w.onSelectionChanged.completionState_ =
        { completion_ := [], requested_ := false, index_ := -1 } ∧
      w.onSelectionChanged.onSelectionChanged = w.onSelectionChanged) ∧
    (∀ old now : Nat,
      (w.onCursorPositionChanged old now).completionState_ =
        { completion_ := [], requested_ := false, index_ := -1 } ∧
      (w.onCursorPositionChanged old now).onCursorPositionChanged old now =
        w.onCursorPositionChanged old now) ∧
    (w.onTextEdited.completionState_ =
        { completion_ := [], requested_ := false, index_ := -1 } ∧
      w.onTextEdited.onTextEdited = w.onTextEdited ∧
      w.onTextEdited.historyState_.prefixFilter_ = w.text) := by
  refine ⟨⟨rfl, rfl⟩, fun _ _ => ⟨rfl, rfl⟩, ?_⟩
  by_cases hc : w.cursorPosition = w.text.length
  · have hu : ∀ v : QCommandEdit, v.cursorPosition = v.text.length →
        v.onTextEdited =
          searchMatchingHistoryAndShowGhost
            { v.resetCompletion with
              historyState_ := { v.historyState_ with prefixFilter_ := v.text } } := by
      intro v hv
      unfold onTextEdited
      simp only []
      rw [if_pos (by exact hv)]
      rfl
    have h1 := hu w hc
    rw [searchGhost_eq] at h1
    have h2 := hu w.onTextEdited (by rw [h1]; exact hc)
    rw [searchGhost_eq] at h2
    refine ⟨by rw [h1]; rfl, ?_, by rw [h1]⟩
    rw [h2]
    rw [h1]
    rfl
  · have hu : ∀ v : QCommandEdit, ¬ (v.cursorPosition = v.text.length) →
        v.onTextEdited =
          { v.resetCompletion with
            historyState_ := { v.historyState_ with prefixFilter_ := v.text } } := by
      intro v hv
      unfold onTextEdited
      simp only []
      rw [if_neg (by exact hv)]
      rfl
    have h1 := hu w hc
    have h2 := hu w.onTextEdited (by rw [h1]; exact hc)
    refine ⟨by rw [h1]; rfl, ?_, by rw [h1]⟩
    rw [h2, h1]
    rfl

/-! ## Theorems: the completion handler of the main window -/

theorem completionCandidates_of_token (m : MainWindow) (cmd : QString) (cursorPos : Int)
    (tok : Token)
    (hget : (QCommandTokenizer.setCommand { command_ := [], tokens_ := [] }
      cmd).getTokenAtCharPos cursorPos = .ok tok) :
    m.completionCandidates cmd cursorPos =
      if cursorPos ≠ (tok.end_ : Int) then .error "Not completing at middle of token"
      else
        .ok (m.words_.filterMap
          (fun w => if startsWith w tok.token_ then some (w.drop tok.token_.length)
            else none)) := by
  unfold MainWindow.completionCandidates
  simp only []
  rw [hget]

theorem completionCandidates_of_error (m : MainWindow) (cmd : QString) (cursorPos : Int)
    (ex : String)
    (hget : (QCommandTokenizer.setCommand { command_ := [], tokens_ := [] }
      cmd).getTokenAtCharPos cursorPos = .error ex) :
    m.completionCandidates cmd cursorPos = .error ex := by
  unfold MainWindow.completionCandidates
  simp only []
  rw [hget]

theorem filterMap_words (words : List QString) (p : QString) :
    words.filterMap (fun w => if startsWith w p then some (w.drop p.length) else none) =
      (words.filter (fun w => startsWith w p)).map (fun w => w.drop p.length) := by
  induction words with
  | nil => rfl
  | cons x xs ih =>
    by_cases h : startsWith x p = true
    · simp [List.filterMap_cons, List.filter_cons, h, ih]
    · have h' : startsWith x p = false := by simpa using h
      simp [List.filterMap_cons, List.filter_cons, h', ih]

/-- C17: for a command `cmd` and a cursor position `0 <= cursorPos <= len`,
`onAskCompletion` calls `setCompletion` iff the cursor is exactly at the end of
a token; the list it passes is then, in the order of the word list, every word
that starts with the text of that token, with that text removed from its
front. In every other case the handler returns with the window unchanged (a
message was thrown and caught). -/
theorem onAskCompletion_supplies (m : MainWindow) (cmd : QString) (cursorPos : Int)
    (h0 : 0 ≤ cursorPos) (hn : cursorPos ≤ (cmd.length : Int)) :
    (AtTokenEnd cmd cursorPos →
      ∃ tok,
        tok ∈ (QCommandTokenizer.setCommand { command_ := [], tokens_ := [] } cmd).getTokens ∧
        (tok.end_ : Int) = cursorPos ∧
        tok.token_ = (cmd.drop tok.start_).take (tok.end_ - tok.start_) ∧
        m.completionCandidates cmd cursorPos =
          .ok ((m.words_.filter (fun w => startsWith w tok.token_)).map
            (fun w => w.drop tok.token_.length)) ∧
        m.onAskCompletion cmd cursorPos =
          { m with
            commandEdit :=
              m.commandEdit.setCompletion
                ((m.words_.filter (fun w => startsWith w tok.token_)).map
                  (fun w => w.drop tok.token_.length)) }) ∧
    (¬ AtTokenEnd cmd cursorPos →
      (∃ ex, m.completionCandidates cmd cursorPos = .error ex) ∧
      m.onAskCompletion cmd cursorPos = m) := by
  obtain ⟨k, rfl⟩ : ∃ k : Nat, cursorPos = (k : Int) := ⟨cursorPos.toNat, by omega⟩
  have hk : k ≤ cmd.length := by omega
  obtain ⟨h1, h2, h3⟩ := tokens_spec { command_ := [], tokens_ := [] } cmd
  have hin : ¬ ((k : Int) < 0 ∨ (k : Int) >
      (((QCommandTokenizer.setCommand { command_ := [], tokens_ := [] } cmd).command_.length
        : Nat) : Int)) := by
    rw [setCommand_command]; omega
  constructor
  · rintro ⟨hpos, hprev, hnext⟩
    simp only [Int.toNat_ofNat] at hprev hnext
    have hkpos : 0 < k := by omega
    obtain ⟨a, b, hab, ha, hb⟩ := exists_run_of_char cmd (k - 1) (by omega) hprev
    have hbk : b = k := by
      by_contra hne
      have hlt : k < b := by omega
      have hns := hab.2.2.1 k (by omega) hlt
      have hb2 := hab.2.1
      rcases hnext with hnext | hnext
      · omega
      · rw [hns] at hnext; exact Bool.noConfusion hnext
    subst hbk
    obtain ⟨tok, hmem, e1, e2⟩ := h2 a b hab
    have ho : tok.overlaps (b : Int) = true := by
      unfold Token.overlaps
      simp only [Bool.and_eq_true, decide_eq_true_eq]
      omega
    have hget : (QCommandTokenizer.setCommand { command_ := [], tokens_ := [] }
        cmd).getTokenAtCharPos (b : Int) = .ok tok := by
      unfold QCommandTokenizer.getTokenAtCharPos
      rw [if_neg hin, find_overlaps_of_sorted _ _ h3 tok hmem ho]
    have hcand := completionCandidates_of_token m cmd (b : Int) tok hget
    rw [if_neg (by simp [e2]), filterMap_words] at hcand
    refine ⟨tok, by rw [getTokens_eq]; exact hmem, by simp [e2], (h1 tok hmem).2.1, hcand, ?_⟩
    unfold MainWindow.onAskCompletion
    rw [hcand]
  · intro hnot
    have herr : ∃ ex, m.completionCandidates cmd (k : Int) = .error ex := by
      cases hget : (QCommandTokenizer.setCommand { command_ := [], tokens_ := [] }
          cmd).getTokenAtCharPos (k : Int) with
      | error ex => exact ⟨ex, completionCandidates_of_error m cmd _ ex hget⟩
      | ok tok =>
        refine ⟨"Not completing at middle of token", ?_⟩
        rw [completionCandidates_of_token m cmd _ tok hget]
        have hne : (k : Int) ≠ (tok.end_ : Int) := by
          intro heq
          apply hnot
          unfold QCommandTokenizer.getTokenAtCharPos at hget
          rw [if_neg hin] at hget
          cases hf : (QCommandTokenizer.setCommand { command_ := [], tokens_ := [] }
              cmd).tokens_.find? (fun t => t.overlaps (k : Int)) with
          | none => rw [hf] at hget; exact Except.noConfusion hget
          | some t2 =>
            rw [hf] at hget
            have ht2 : t2 = tok := Except.ok.inj hget
            subst ht2
            have hmem := List.mem_of_find?_eq_some hf
            obtain ⟨_, _, r1, r2, r3, r4, r5⟩ := h1 t2 hmem
            have hke : k = t2.end_ := by omega
            refine ⟨by omega, ?_, ?_⟩
            · simp only [Int.toNat_ofNat]
              exact r3 (k - 1) (by omega) (by omega)
            · simp only [Int.toNat_ofNat]
              rw [hke]
              rcases r5 with r5 | r5
              · exact Or.inl (by rw [r5])
              · exact Or.inr r5
        rw [if_pos hne]
    refine ⟨herr, ?_⟩
    obtain ⟨ex, hex⟩ := herr
    unfold MainWindow.onAskCompletion
    rw [hex]

theorem onAskCompletion_supplies_witness :
    (∃ tok,
      tok ∈ (QCommandTokenizer.setCommand { command_ := [], tokens_ := [] }
        "x = im".toList).getTokens ∧
      (tok.end_ : Int) = 6 ∧
      tok.token_ = ("x = im".toList.drop tok.start_).take (tok.end_ - tok.start_) ∧
      MainWindow.init.completionCandidates "x = im".toList 6 =
        .ok ((MainWindow.init.words_.filter (fun w => startsWith w tok.token_)).map
          (fun w => w.drop tok.token_.length)) ∧
      MainWindow.init.onAskCompletion "x = im".toList 6 =
        { MainWindow.init with
          commandEdit :=
            MainWindow.init.commandEdit.setCompletion
              ((MainWindow.init.words_.filter (fun w => startsWith w tok.token_)).map
                (fun w => w.drop tok.token_.length)) }) ∧
    MainWindow.init.completionCandidates "x = im".toList 6 = .ok ["port".toList] ∧
    MainWindow.init.onAskCompletion "x = im".toList 5 = MainWindow.init :=
  ⟨(onAskCompletion_supplies MainWindow.init "x = im".toList 6 (by decide) (by decide)).1
      (by decide),
   rfl,
   ((onAskCompletion_supplies MainWindow.init "x = im".toList 5 (by decide) (by decide)).2
      (by decide)).2⟩

/-! ## Theorems: invariants of the reachable states, cycling -/

theorem kept_refl (w : QCommandEdit) : CompletionKeptOrReset w w := Or.inl rfl

theorem kept_trans {w w1 w2 : QCommandEdit} (h1 : CompletionKeptOrReset w w1)
    (h2 : CompletionKeptOrReset w1 w2) : CompletionKeptOrReset w w2 := by
  rcases h2 with h2 | h2
  · rcases h1 with h1 | h1
    · exact Or.inl (h2.trans h1)
    · exact Or.inr (h2.trans h1)
  · exact Or.inr h2

theorem same_refl (w : QCommandEdit) : SameHistoryIndex w w := ⟨rfl, rfl⟩

theorem same_trans {w w1 w2 : QCommandEdit} (h1 : SameHistoryIndex w w1)
    (h2 : SameHistoryIndex w1 w2) : SameHistoryIndex w w2 :=
  ⟨h2.1.trans h1.1, h2.2.trans h1.2⟩

theorem deliver_frame (b : Bool) (o : Nat) (w : QCommandEdit) :
    SameHistoryIndex w (deliverBufferSignals b o w) ∧
    CompletionKeptOrReset w (deliverBufferSignals b o w) := by
  obtain ⟨c, e, d⟩ := deliverBufferSignals_eq b o w
  rw [e]
  refine ⟨⟨rfl, rfl⟩, ?_⟩
  rcases d with d | ⟨_, d⟩
  · exact Or.inl d
  · exact Or.inr d

theorem setText_frame (w : QCommandEdit) (t : QString) :
    SameHistoryIndex w (w.setText t) ∧ CompletionKeptOrReset w (w.setText t) := by
  unfold setText
  exact deliver_frame _ _ _

theorem setCursorPosition_frame (w : QCommandEdit) (pos : Nat) :
    SameHistoryIndex w (w.setCursorPosition pos) ∧
    CompletionKeptOrReset w (w.setCursorPosition pos) := by
  unfold setCursorPosition
  by_cases h : pos ≤ w.text.length
  · rw [if_pos h]
    exact deliver_frame _ _ _
  · rw [if_neg h]
    exact ⟨same_refl w, kept_refl w⟩

theorem setSelection_frame (w : QCommandEdit) (start length : Nat) :
    SameHistoryIndex w (w.setSelection start length) ∧
    CompletionKeptOrReset w (w.setSelection start length) := by
  unfold setSelection
  split
  · exact ⟨same_refl w, kept_refl w⟩
  · split
    · split
      · exact ⟨same_refl w, kept_refl w⟩
      · exact deliver_frame _ _ _
    · split
      · exact ⟨same_refl w, kept_refl w⟩
      · exact deliver_frame _ _ _

theorem searchGhost_frame (w : QCommandEdit) :
    SameHistoryIndex w w.searchMatchingHistoryAndShowGhost ∧
    CompletionKeptOrReset w w.searchMatchingHistoryAndShowGhost := by
  rw [searchGhost_eq]
  exact ⟨⟨rfl, rfl⟩, Or.inl rfl⟩

theorem insertTextAtCursor_frame (w : QCommandEdit) (txt : QString) (selected : Bool) :
    SameHistoryIndex w (w.insertTextAtCursor txt selected) ∧
    CompletionKeptOrReset w (w.insertTextAtCursor txt selected) := by
  obtain ⟨c, e, d⟩ := insertTextAtCursor_eq w txt selected
  rw [e]
  refine ⟨⟨rfl, rfl⟩, ?_⟩
  rcases d with d | ⟨_, d⟩
  · exact Or.inl d
  · exact Or.inr d

/-- `setCurrentCompletion` leaves both models as they are. -/
theorem setCurrentCompletion_models (w : QCommandEdit) (s : QString) :
    (w.setCurrentCompletion s).historyState_ = w.historyState_ ∧
    (w.setCurrentCompletion s).completionState_ = w.completionState_ := by
  obtain ⟨g, e⟩ := setCurrentCompletion_eq w s
  rw [e]
  exact ⟨rfl, rfl⟩

theorem cancelCompletion_frame (w : QCommandEdit) :
    SameHistoryIndex w w.cancelCompletion ∧ CompletionKeptOrReset w w.cancelCompletion := by
  by_cases hs : w.hasSelectedText = true
  · obtain ⟨g, e⟩ := cancelCompletion_eq w hs
    rw [e]
    exact ⟨⟨rfl, rfl⟩, Or.inr rfl⟩
  · unfold cancelCompletion
    rw [if_neg hs]
    exact ⟨same_refl w, kept_refl w⟩

theorem acceptCompletion_frame (w : QCommandEdit) :
    SameHistoryIndex w w.acceptCompletion ∧ CompletionKeptOrReset w w.acceptCompletion := by
  by_cases hs : w.hasSelectedText = true
  · obtain ⟨g, e⟩ := acceptCompletion_eq w hs
    rw [e]
    exact ⟨⟨rfl, rfl⟩, Or.inr rfl⟩
  · unfold acceptCompletion
    rw [if_neg hs]
    exact ⟨same_refl w, kept_refl w⟩

theorem onTextEdited_frame (w : QCommandEdit) :
    SameHistoryIndex w w.onTextEdited ∧ CompletionKeptOrReset w w.onTextEdited := by
  unfold onTextEdited
  simp only []
  split
  · rw [searchGhost_eq]
    exact ⟨⟨rfl, rfl⟩, Or.inr rfl⟩
  · exact ⟨⟨rfl, rfl⟩, Or.inr rfl⟩

theorem userEdit_frame (w : QCommandEdit) (t : QString) (pos : Nat) :
    SameHistoryIndex w (userEdit w t pos) ∧ CompletionKeptOrReset w (userEdit w t pos) := by
  unfold userEdit
  simp only []
  have hd := deliver_frame w.hasSelectedText w.cursorPosition
    (if w.signalsBlocked = true then
      { w with text := t, selStart := 0, selEnd := 0, cursorPosition := min pos t.length }
    else
      onTextEdited
        { w with text := t, selStart := 0, selEnd := 0, cursorPosition := min pos t.length })
  have hi : SameHistoryIndex w
      (if w.signalsBlocked = true then
        { w with text := t, selStart := 0, selEnd := 0, cursorPosition := min pos t.length }
      else
        onTextEdited
          { w with text := t, selStart := 0, selEnd := 0,
                   cursorPosition := min pos t.length }) ∧
      CompletionKeptOrReset w
      (if w.signalsBlocked = true then
        { w with text := t, selStart := 0, selEnd := 0, cursorPosition := min pos t.length }
      else
        onTextEdited
          { w with text := t, selStart := 0, selEnd := 0,
                   cursorPosition := min pos t.length }) := by
    split
    · exact ⟨⟨rfl, rfl⟩, Or.inl rfl⟩
    · exact onTextEdited_frame
        { w with text := t, selStart := 0, selEnd := 0, cursorPosition := min pos t.length }
  exact ⟨same_trans hi.1 hd.1, kept_trans hi.2 hd.2⟩

theorem searchGhost_completionState (w : QCommandEdit) :
    w.searchMatchingHistoryAndShowGhost.completionState_ = w.completionState_ := by
  rw [searchGhost_eq]

theorem setHistoryIndex_kept (w : QCommandEdit) (i : Int) :
    CompletionKeptOrReset w (w.setHistoryIndex i) := by
  unfold setHistoryIndex
  split
  · exact kept_refl w
  · simp only []
    split
    · unfold CompletionKeptOrReset
      simp only [searchGhost_completionState]
      exact (setText_frame _ _).2
    · unfold CompletionKeptOrReset
      simp only []
      exact (setText_frame _ _).2

theorem setHistoryIndex_ok (w : QCommandEdit) (i : Int) (h : HistoryIndexOk w) :
    HistoryIndexOk (w.setHistoryIndex i) := by
  by_cases hr : i < 0 ∨ i > (w.historyState_.history_.length : Int)
  · unfold setHistoryIndex
    rw [if_pos hr]
    exact h
  · by_cases he : i = (w.historyState_.history_.length : Int)
    · subst he
      have := (setHistoryIndex_end w).2
      unfold HistoryIndexOk
      rw [this]
      exact Or.inl rfl
    · obtain ⟨k, rfl⟩ : ∃ k : Nat, i = (k : Int) := ⟨i.toNat, by omega⟩
      have hk : k < w.historyState_.history_.length := by omega
      have := (setHistoryIndex_entry w k hk).2
      unfold HistoryIndexOk
      rw [this]
      exact Or.inr ⟨by simp, by simpa using hk⟩

theorem navigateHistory_ok (w : QCommandEdit) (delta : Int) (h : HistoryIndexOk w) :
    HistoryIndexOk (w.navigateHistory delta) ∧
    CompletionKeptOrReset w (w.navigateHistory delta) := by
  unfold navigateHistory
  split
  · exact ⟨h, kept_refl w⟩
  · simp only []
    split
    · exact ⟨setHistoryIndex_ok w _ h, setHistoryIndex_kept w _⟩
    · split
      · exact ⟨setHistoryIndex_ok w _ h, setHistoryIndex_kept w _⟩
      · split
        · exact ⟨setHistoryIndex_ok w _ h, setHistoryIndex_kept w _⟩
        · exact ⟨h, kept_refl w⟩
      · exact ⟨h, kept_refl w⟩

theorem navigateHistory_kept (w : QCommandEdit) (delta : Int) :
    CompletionKeptOrReset w (w.navigateHistory delta) := by
  unfold navigateHistory
  split
  · exact kept_refl w
  · simp only []
    split
    · exact setHistoryIndex_kept w _
    · split
      · exact setHistoryIndex_kept w _
      · split
        · exact setHistoryIndex_kept w _
        · exact kept_refl w
      · exact kept_refl w

theorem clear_ok (w : QCommandEdit) :
    HistoryIndexOk w.clear ∧ CompletionKeptOrReset w w.clear := by
  rw [clear_eq]
  exact ⟨Or.inl rfl, Or.inr rfl⟩

theorem setHistory_ok (w : QCommandEdit) (history : List QString) :
    HistoryIndexOk (w.setHistory history) ∧
    CompletionKeptOrReset w (w.setHistory history) := by
  unfold setHistory
  simp only []
  refine ⟨Or.inl rfl, ?_⟩
  split
  · exact (clear_ok w).2
  · exact kept_refl w

theorem ok_of_same {w w' : QCommandEdit} (hs : SameHistoryIndex w w')
    (h : HistoryIndexOk w) : HistoryIndexOk w' := by
  unfold HistoryIndexOk at h ⊢
  rw [hs.1, hs.2]
  exact h

theorem onEscapePressed_ok (w : QCommandEdit) (h : HistoryIndexOk w) :
    HistoryIndexOk w.onEscapePressed ∧ CompletionKeptOrReset w w.onEscapePressed := by
  have key : ∀ v : QCommandEdit, HistoryIndexOk v →
      HistoryIndexOk (if v.hasSelectedText = true then v.cancelCompletion else v.clear) ∧
      CompletionKeptOrReset v
        (if v.hasSelectedText = true then v.cancelCompletion else v.clear) := by
    intro v hv
    split
    · exact ⟨ok_of_same (cancelCompletion_frame v).1 hv, (cancelCompletion_frame v).2⟩
    · exact clear_ok v
  unfold onEscapePressed
  simp only []
  split
  · exact key { w with emitted := w.emitted ++ [HostSignal.escape] } h
  · exact key w h

/-- The branches of `setCompletion`, one by one. -/
theorem setCompletion_branches (w : QCommandEdit) (cs : List QString) :
    w.setCompletion cs =
      if w.autoAcceptLongestCommonCompletionPrefix_ = true ∧ longestCommonPrefix cs ≠ [] ∧
          w.completionState_.requested_ = true then
        if (cs.map (fun s => s.drop ( longestCommonPrefix cs).length)).isEmpty = true then
          { afterPrefixAccepted w cs with
            completionState_ := (afterPrefixAccepted w cs).completionState_.reset }
        else if (afterPrefixAccepted w cs).completionState_.requested_ = true then
          (afterPrefixAccepted w cs).navigateCompletion 1
        else afterPrefixAccepted w cs
      else if w.completionState_.requested_ = true then
        navigateCompletion
          { w with completionState_ := { w.completionState_ with completion_ := cs } } 1
      else { w with completionState_ := { w.completionState_ with completion_ := cs } } := by
  unfold setCompletion afterPrefixAccepted
  by_cases hauto : w.autoAcceptLongestCommonCompletionPrefix_ = true
  · by_cases hl : longestCommonPrefix cs ≠ []
    · by_cases hreq : w.completionState_.requested_ = true
      · by_cases hemp : (cs.map (fun s => s.drop ( longestCommonPrefix cs).length)).isEmpty
            = true
        · simp only [hauto, hl, hreq, hemp, ne_eq, not_false_eq_true, and_self, if_true]
        · simp only [hauto, hl, hreq, hemp, ne_eq, not_false_eq_true, and_self, if_true,
            if_false, Bool.false_eq_true]
      · simp only [hauto, hl, hreq, ne_eq, not_false_eq_true, and_false, and_true, if_true,
          if_false, Bool.false_eq_true]
    · simp only [hauto, hl, ne_eq, not_false_eq_true, and_false, false_and, and_true,
        if_true, if_false, Bool.false_eq_true]
  · simp only [hauto, ne_eq, not_false_eq_true, and_false, false_and, and_true,
      if_true, if_false, Bool.false_eq_true]

theorem navigateCompletion_ok (w : QCommandEdit) (delta : Int) :
    SameHistoryIndex w (w.navigateCompletion delta) ∧
    (CompletionIndexOk w → CompletionIndexOk (w.navigateCompletion delta)) := by
  unfold navigateCompletion
  by_cases h0 : delta = 0
  · rw [if_pos h0]
    exact ⟨same_refl w, fun h => h⟩
  · rw [if_neg h0]
    simp only []
    generalize (if delta < -1 then (-1 : Int) else if delta > 1 then 1 else delta) = d
    by_cases hr : w.completionState_.index_ + d < 0 ∨
        w.completionState_.index_ + d ≥ (w.completionState_.completion_.length : Int)
    · rw [if_pos hr]
      exact ⟨same_refl w, fun h => h⟩
    · rw [if_neg hr]
      have hm := setCurrentCompletion_models
        { w with completionState_ :=
            { w.completionState_ with index_ := w.completionState_.index_ + d } }
        (w.completionState_.completion_.getD (w.completionState_.index_ + d).toNat [])
      refine ⟨?_, fun _ => ?_⟩
      · unfold SameHistoryIndex
        rw [hm.1]
        exact ⟨rfl, rfl⟩
      · unfold CompletionIndexOk
        rw [hm.2]
        right
        simp only []
        omega

theorem afterPrefixAccepted_models (w : QCommandEdit) (cs : List QString) :
    SameHistoryIndex w (afterPrefixAccepted w cs) ∧
    (afterPrefixAccepted w cs).completionState_.index_ = w.completionState_.index_ ∧
    (afterPrefixAccepted w cs).completionState_.completion_.length = cs.length := by
  obtain ⟨c, e, d⟩ := insertTextAtCursor_eq
    (blockSignals
      { w with completionState_ := { w.completionState_ with completion_ := cs } } true)
    ( longestCommonPrefix cs) false
  have hc : c = { w.completionState_ with completion_ := cs } := by
    rcases d with d | ⟨d, _⟩
    · exact d
    · exact absurd d (by simp [blockSignals])
  subst hc
  unfold afterPrefixAccepted
  simp only []
  rw [e]
  exact ⟨⟨rfl, rfl⟩, rfl, by simp⟩

theorem setCompletion_ok (w : QCommandEdit) (cs : List QString) :
    SameHistoryIndex w (w.setCompletion cs) ∧
    (w.completionState_.index_ = -1 → CompletionIndexOk (w.setCompletion cs)) := by
  obtain ⟨ha1, ha2, ha3⟩ := afterPrefixAccepted_models w cs
  rw [setCompletion_branches]
  split
  · split
    · exact ⟨⟨ha1.1, ha1.2⟩, fun _ => Or.inl rfl⟩
    · split
      · refine ⟨same_trans ha1 (navigateCompletion_ok _ 1).1, fun hi => ?_⟩
        exact (navigateCompletion_ok _ 1).2 (Or.inl (ha2.trans hi))
      · exact ⟨ha1, fun hi => Or.inl (ha2.trans hi)⟩
  · split
    · refine ⟨same_trans ⟨rfl, rfl⟩ (navigateCompletion_ok _ 1).1, fun hi => ?_⟩
      exact (navigateCompletion_ok _ 1).2 (Or.inl hi)
    · exact ⟨⟨rfl, rfl⟩, fun hi => Or.inl hi⟩

theorem onTabPressed_ok (w : QCommandEdit) :
    SameHistoryIndex w w.onTabPressed ∧
    (CompletionIndexOk w → CompletionIndexOk w.onTabPressed) := by
  unfold onTabPressed
  split
  · split
    · exact ⟨same_refl w, fun h => h⟩
    · exact ⟨⟨rfl, rfl⟩, fun h => h⟩
  · exact navigateCompletion_ok w 1

theorem completionOk_of_kept {w w' : QCommandEdit} (hk : CompletionKeptOrReset w w')
    (h : CompletionIndexOk w) : CompletionIndexOk w' := by
  unfold CompletionIndexOk at h ⊢
  rcases hk with hk | hk
  · rw [hk]; exact h
  · rw [hk]; exact Or.inl rfl

/-- Every operation keeps the history index in range, and keeps the completion
index in range when `setCompletion` is only applied with the index none. -/
theorem step_ok (w : QCommandEdit) (op : Op) :
    (HistoryIndexOk w → HistoryIndexOk (step w op)) ∧
    (answersFreshRequest w op = true → CompletionIndexOk w →
      CompletionIndexOk (step w op)) := by
  have frame : ∀ w' : QCommandEdit, SameHistoryIndex w w' ∧ CompletionKeptOrReset w w' →
      (HistoryIndexOk w → HistoryIndexOk w') ∧
      (CompletionIndexOk w → CompletionIndexOk w') :=
    fun w' h => ⟨ok_of_same h.1, completionOk_of_kept h.2⟩
  cases op with
  | setShowMatchingHistory b =>
    have h : SameHistoryIndex w (w.setShowMatchingHistory b) ∧
        CompletionKeptOrReset w (w.setShowMatchingHistory b) := by
      unfold setShowMatchingHistory
      simp only []
      split
      · exact searchGhost_frame { w with showMatchingHistory_ := b }
      · exact ⟨⟨rfl, rfl⟩, Or.inl rfl⟩
    exact ⟨(frame _ h).1, fun _ => (frame _ h).2⟩
  | setAutoAcceptLongestCommonCompletionPrefix b =>
    exact ⟨fun h => h, fun _ h => h⟩
  | clear =>
    exact ⟨fun _ => (clear_ok w).1, fun _ => completionOk_of_kept (clear_ok w).2⟩
  | setHistory history =>
    exact ⟨fun _ => (setHistory_ok w history).1,
      fun _ => completionOk_of_kept (setHistory_ok w history).2⟩
  | navigateHistory d =>
    exact ⟨fun h => (navigateHistory_ok w d h).1,
      fun _ => completionOk_of_kept (navigateHistory_kept w d)⟩
  | setHistoryIndex i =>
    exact ⟨setHistoryIndex_ok w i, fun _ => completionOk_of_kept (setHistoryIndex_kept w i)⟩
  | insertTextAtCursor txt sel =>
    exact ⟨(frame _ (insertTextAtCursor_frame w txt sel)).1,
      fun _ => (frame _ (insertTextAtCursor_frame w txt sel)).2⟩
  | setCompletion cs =>
    refine ⟨ok_of_same (setCompletion_ok w cs).1, fun ha _ => ?_⟩
    exact (setCompletion_ok w cs).2 (by simpa [answersFreshRequest] using ha)
  | resetCompletion =>
    exact ⟨fun h => h, fun _ _ => Or.inl rfl⟩
  | setCurrentCompletion s =>
    have hm := setCurrentCompletion_models w s
    refine ⟨fun h => ?_, fun _ h => ?_⟩
    · show HistoryIndexOk (w.setCurrentCompletion s)
      unfold HistoryIndexOk at *
      rw [hm.1]; exact h
    · show CompletionIndexOk (w.setCurrentCompletion s)
      unfold CompletionIndexOk at *
      rw [hm.2]; exact h
  | navigateCompletion d =>
    exact ⟨ok_of_same (navigateCompletion_ok w d).1, fun _ => (navigateCompletion_ok w d).2⟩
  | acceptCompletion =>
    exact ⟨(frame _ (acceptCompletion_frame w)).1,
      fun _ => (frame _ (acceptCompletion_frame w)).2⟩
  | cancelCompletion =>
    exact ⟨(frame _ (cancelCompletion_frame w)).1,
      fun _ => (frame _ (cancelCompletion_frame w)).2⟩
  | moveCursorToEnd =>
    exact ⟨(frame _ (setCursorPosition_frame w _)).1,
      fun _ => (frame _ (setCursorPosition_frame w _)).2⟩
  | returnPressed =>
    have h : SameHistoryIndex w w.onReturnPressed ∧
        CompletionKeptOrReset w w.onReturnPressed := by
      unfold onReturnPressed
      split
      · exact ⟨same_refl w, kept_refl w⟩
      · split
        · exact acceptCompletion_frame w
        · exact ⟨⟨rfl, rfl⟩, Or.inl rfl⟩
    exact ⟨(frame _ h).1, fun _ => (frame _ h).2⟩
  | escapePressed =>
    refine ⟨fun h => (onEscapePressed_ok w h).1, fun _ hc => ?_⟩
    show CompletionIndexOk w.onEscapePressed
    unfold onEscapePressed
    simp only []
    have key : ∀ v : QCommandEdit, CompletionIndexOk v →
        CompletionIndexOk (if v.hasSelectedText = true then v.cancelCompletion
          else v.clear) := by
      intro v hv
      split
      · exact completionOk_of_kept (cancelCompletion_frame v).2 hv
      · exact completionOk_of_kept (clear_ok v).2 hv
    split
    · exact key { w with emitted := w.emitted ++ [HostSignal.escape] } hc
    · exact key w hc
  | upPressed =>
    exact ⟨fun h => (navigateHistory_ok w (-1) h).1,
      fun _ => completionOk_of_kept (navigateHistory_kept w (-1))⟩
  | downPressed =>
    exact ⟨fun h => (navigateHistory_ok w 1 h).1,
      fun _ => completionOk_of_kept (navigateHistory_kept w 1)⟩
  | tabPressed =>
    exact ⟨ok_of_same (onTabPressed_ok w).1, fun _ => (onTabPressed_ok w).2⟩
  | shiftTabPressed =>
    exact ⟨ok_of_same (navigateCompletion_ok w (-1)).1,
      fun _ => (navigateCompletion_ok w (-1)).2⟩
  | userEdit t pos =>
    exact ⟨(frame _ (userEdit_frame w t pos)).1, fun _ => (frame _ (userEdit_frame w t pos)).2⟩
  | setText t =>
    exact ⟨(frame _ (setText_frame w t)).1, fun _ => (frame _ (setText_frame w t)).2⟩
  | setCursorPosition pos =>
    exact ⟨(frame _ (setCursorPosition_frame w pos)).1,
      fun _ => (frame _ (setCursorPosition_frame w pos)).2⟩
  | setSelection start length =>
    exact ⟨(frame _ (setSelection_frame w start length)).1,
      fun _ => (frame _ (setSelection_frame w start length)).2⟩

theorem foldl_history_ok : ∀ (ops : List Op) (w : QCommandEdit),
    HistoryIndexOk w → HistoryIndexOk (ops.foldl step w) := by
  intro ops
  induction ops with
  | nil => intro w h; exact h
  | cons op rest ih =>
    intro w h
    exact ih (step w op) ((step_ok w op).1 h)

theorem foldl_completion_ok : ∀ (ops : List Op) (w : QCommandEdit),
    followsProtocol w ops = true → CompletionIndexOk w →
    CompletionIndexOk (ops.foldl step w) := by
  intro ops
  induction ops with
  | nil => intro w _ h; exact h
  | cons op rest ih =>
    intro w hp h
    unfold followsProtocol at hp
    rw [Bool.and_eq_true] at hp
    exact ih (step w op) hp.2 ((step_ok w op).2 hp.1 h)

/-- C21: in every state reached from the constructed widget by a sequence of
operations, the history index is none (`-1`) or a position of an entry; it is
never the position one past the last entry, and selecting that position with
`setHistoryIndex` sets the index to none. -/
theorem history_index_invariant (ops : List Op) :
    ((run ops).historyState_.index_ = -1 ∨
      (0 ≤ (run ops).historyState_.index_ ∧
        (run ops).historyState_.index_ <
          ((run ops).historyState_.history_.length : Int))) ∧
    (run ops).historyState_.index_ ≠ ((run ops).historyState_.history_.length : Int) ∧
    ((run ops).setHistoryIndex
      ((run ops).historyState_.history_.length : Int)).historyState_.index_ = -1 := by
  have h : HistoryIndexOk (run ops) := foldl_history_ok ops QCommandEdit.init (Or.inl rfl)
  refine ⟨h, ?_, ?_⟩
  · unfold HistoryIndexOk at h
    omega
  · rw [(setHistoryIndex_end (run ops)).2]
    rfl

/-- C22 (as stated, refuted): after Tab, `setCompletion` with two candidates
and `setCompletion` with the empty list, the candidate list is empty while the
completion index is `0`. -/
theorem completion_index_counterexample :
    (run [Op.tabPressed, Op.setCompletion ["a".toList, "b".toList],
      Op.setCompletion []]).completionState_.completion_ = [] ∧
    (run [Op.tabPressed, Op.setCompletion ["a".toList, "b".toList],
      Op.setCompletion []]).completionState_.index_ = 0 ∧
    ¬ CompletionIndexOk (run [Op.tabPressed, Op.setCompletion ["a".toList, "b".toList],
      Op.setCompletion []]) := by
  decide

/-- C22 (amended): in every state reached from the constructed widget by a
sequence of operations in which `setCompletion` is only applied while the
completion index is none, the completion index is none (`-1`) or a position of
a candidate; in particular it is none whenever the candidate list is empty. -/
theorem completion_index_invariant (ops : List Op)
    (hp : followsProtocol QCommandEdit.init ops = true) :
    ((run ops).completionState_.index_ = -1 ∨
      (0 ≤ (run ops).completionState_.index_ ∧
        (run ops).completionState_.index_ <
          ((run ops).completionState_.completion_.length : Int))) ∧
    ((run ops).completionState_.completion_ = [] →
      (run ops).completionState_.index_ = -1) := by
  have h : CompletionIndexOk (run ops) :=
    foldl_completion_ok ops QCommandEdit.init hp (Or.inl rfl)
  refine ⟨h, fun hnil => ?_⟩
  unfold CompletionIndexOk at h
  rw [hnil] at h
  simp only [List.length_nil] at h
  omega

theorem completion_index_invariant_witness :
    followsProtocol QCommandEdit.init
      [Op.userEdit "f".toList 1, Op.tabPressed,
        Op.setCompletion ["oo".toList, "op".toList], Op.tabPressed] = true ∧
    (run [Op.userEdit "f".toList 1, Op.tabPressed,
      Op.setCompletion ["oo".toList, "op".toList], Op.tabPressed]).completionState_.index_
      = 1 ∧
    ((run [Op.userEdit "f".toList 1, Op.tabPressed,
        Op.setCompletion ["oo".toList, "op".toList],
        Op.tabPressed]).completionState_.index_ = -1 ∨
      (0 ≤ (run [Op.userEdit "f".toList 1, Op.tabPressed,
          Op.setCompletion ["oo".toList, "op".toList],
          Op.tabPressed]).completionState_.index_ ∧
        (run [Op.userEdit "f".toList 1, Op.tabPressed,
          Op.setCompletion ["oo".toList, "op".toList],
          Op.tabPressed]).completionState_.index_ <
          ((run [Op.userEdit "f".toList 1, Op.tabPressed,
            Op.setCompletion ["oo".toList, "op".toList],
            Op.tabPressed]).completionState_.completion_.length : Int))) :=
  ⟨by decide, by decide,
   (completion_index_invariant
     [Op.userEdit "f".toList 1, Op.tabPressed,
       Op.setCompletion ["oo".toList, "op".toList], Op.tabPressed] (by decide)).1⟩

/-- Replacing the shown candidate `s` by `t` with `setCurrentCompletion`. -/
theorem setCurrentCompletion_shown (w : QCommandEdit) (B A s t : QString)
    (h : CandidateShown w B A s) :
    ∃ g, w.setCurrentCompletion t =
        { w with
          text := B ++ t ++ A
          cursorPosition := B.length + t.length
          selStart := if t ≠ [] then B.length else 0
          selEnd := if t ≠ [] then B.length + t.length else 0
          ghostSuffix_ := g } := by
  obtain ⟨ht, hc, hsel⟩ := h
  obtain ⟨g, e⟩ := setCurrentCompletion_eq w t
  have hip : insertionPoint w = B.length ∧ w.selectedText = s := by
    by_cases hs : s = []
    · subst hs
      rw [if_neg (by simp)] at hsel
      refine ⟨?_, ?_⟩
      · unfold insertionPoint
        rw [hsel]
        simpa using hc
      · unfold selectedText
        rw [hsel]
        rfl
    · rw [if_pos hs] at hsel
      have hpos : 0 < s.length := List.length_pos.mpr hs
      have hh : w.hasSelectedText = true := by
        simp [hasSelectedText, hsel.1, hsel.2, hpos]
      refine ⟨?_, ?_⟩
      · unfold insertionPoint
        rw [hh]
        exact hsel.1
      · exact selectedText_of_span w B A s ht (by rw [if_pos hs]; exact hsel.1)
          (by rw [if_pos hs]; exact hsel.2)
  have htake : w.text.take B.length = B := by
    rw [ht, List.append_assoc, List.take_left' rfl]
  have hdrop : w.text.drop (B.length + s.length) = A := by
    rw [ht]
    exact List.drop_left' (by simp)
  refine ⟨g, ?_⟩
  rw [e, hip.1, hip.2, htake, hdrop]

/-- One step of cycling from a shown candidate to a candidate in range. -/
theorem navigateCompletion_shown (w : QCommandEdit) (B A s : QString) (delta : Int)
    (hd : delta = -1 ∨ delta = 1) (h : CandidateShown w B A s)
    (hlo : 0 ≤ w.completionState_.index_ + delta)
    (hhi : w.completionState_.index_ + delta < (w.completionState_.completion_.length : Int)) :
    ∃ g, w.navigateCompletion delta =
        { w with
          text := B ++
            w.completionState_.completion_.getD (w.completionState_.index_ + delta).toNat []
            ++ A
          cursorPosition := B.length +
            (w.completionState_.completion_.getD
              (w.completionState_.index_ + delta).toNat []).length
          selStart :=
            if w.completionState_.completion_.getD
                (w.completionState_.index_ + delta).toNat [] ≠ [] then B.length
            else 0
          selEnd :=
            if w.completionState_.completion_.getD
                (w.completionState_.index_ + delta).toNat [] ≠ [] then
              B.length + (w.completionState_.completion_.getD
                (w.completionState_.index_ + delta).toNat []).length
            else 0
          completionState_ :=
            { w.completionState_ with index_ := w.completionState_.index_ + delta }
          ghostSuffix_ := g } := by
  have h0 : ¬ (delta = 0) := by omega
  have h1 : ¬ (delta < -1) := by omega
  have h2 : ¬ (delta > 1) := by omega
  have hin : ¬ (w.completionState_.index_ + delta < 0 ∨
      w.completionState_.index_ + delta ≥ (w.completionState_.completion_.length : Int)) := by
    omega
  have hu : w.navigateCompletion delta =
      setCurrentCompletion
        { w with completionState_ :=
            { w.completionState_ with index_ := w.completionState_.index_ + delta } }
        (w.completionState_.completion_.getD
          (w.completionState_.index_ + delta).toNat []) := by
    unfold navigateCompletion
    simp only [h0, h1, h2, if_false]
    rw [if_neg hin]
  obtain ⟨g, hg⟩ := setCurrentCompletion_shown
    { w with completionState_ :=
        { w.completionState_ with index_ := w.completionState_.index_ + delta } }
    B A s
    (w.completionState_.completion_.getD (w.completionState_.index_ + delta).toNat []) h
  exact ⟨g, hu.trans hg⟩

theorem shown_of_fields (w : QCommandEdit) (B A t : QString)
    (h1 : w.text = B ++ t ++ A) (h2 : w.cursorPosition = B.length + t.length)
    (h3 : w.selStart = if t ≠ [] then B.length else 0)
    (h4 : w.selEnd = if t ≠ [] then B.length + t.length else 0) :
    CandidateShown w B A t := by
  refine ⟨h1, h2, ?_⟩
  by_cases ht : t = []
  · rw [if_neg (by simpa using ht)] at h3 h4 ⊢
    simp [hasSelectedText, h3, h4]
  · rw [if_pos ht] at h3 h4 ⊢
    exact ⟨h3, h4⟩

/-- What the buffer shows of the selection when a candidate is shown. -/
theorem shown_selection (w : QCommandEdit) (B A t : QString)
    (h : CandidateShown w B A t) :
    w.hasSelectedText = decide (t ≠ []) ∧
    w.selectionStart = (if t ≠ [] then (B.length : Int) else -1) ∧
    w.selectedText = t := by
  obtain ⟨ht, hc, hsel⟩ := h
  by_cases hs : t = []
  · have hn : ¬ (t ≠ []) := by simpa using hs
    rw [if_neg hn] at hsel
    rw [if_neg hn]
    refine ⟨by rw [hsel]; simp [hs], ?_, ?_⟩
    · unfold selectionStart
      rw [hsel]
      rfl
    · unfold selectedText
      rw [hsel, hs]
      rfl
  · rw [if_pos hs] at hsel
    rw [if_pos hs]
    have hpos : 0 < t.length := List.length_pos.mpr hs
    have hh : w.hasSelectedText = true := by
      simp [hasSelectedText, hsel.1, hsel.2, hpos]
    refine ⟨by rw [hh]; simp [hs], ?_, ?_⟩
    · unfold selectionStart
      rw [hh, hsel.1]
      rfl
    · exact selectedText_of_span w B A t ht (by rw [if_pos hs]; exact hsel.1)
        (by rw [if_pos hs]; exact hsel.2)

/-- C23: when candidate `i` is shown in the buffer (text `B ++ candidates[i] ++
A`, cursor right after it, the candidate selected when it is non-empty and
nothing selected otherwise) and `i + 1` is a position of the candidate list,
`navigateCompletion(+1)` makes the text `B ++ candidates[i+1] ++ A`, and a
following `navigateCompletion(-1)` restores the text, the cursor, the
selection and the completion index; the candidate list never changes. -/
theorem cycle_forward_backward (w : QCommandEdit) (B A : QString) (i : Nat)
    (hi : w.completionState_.index_ = (i : Int))
    (hlen : i + 1 < w.completionState_.completion_.length)
    (hshown : CandidateShown w B A (w.completionState_.completion_.getD i [])) :
    (w.navigateCompletion 1).text =
      B ++ w.completionState_.completion_.getD (i + 1) [] ++ A ∧
    (w.navigateCompletion 1).completionState_.completion_ =
      w.completionState_.completion_ ∧
    ((w.navigateCompletion 1).navigateCompletion (-1)).text = w.text ∧
    ((w.navigateCompletion 1).navigateCompletion (-1)).cursorPosition = w.cursorPosition ∧
    ((w.navigateCompletion 1).navigateCompletion (-1)).hasSelectedText =
      w.hasSelectedText ∧
    ((w.navigateCompletion 1).navigateCompletion (-1)).selectionStart = w.selectionStart ∧
    ((w.navigateCompletion 1).navigateCompletion (-1)).selectedText = w.selectedText ∧
    ((w.navigateCompletion 1).navigateCompletion (-1)).completionState_.index_ =
      w.completionState_.index_ ∧
    ((w.navigateCompletion 1).navigateCompletion (-1)).completionState_.completion_ =
      w.completionState_.completion_ := by
  have e1 : (w.completionState_.index_ + 1).toNat = i + 1 := by omega
  obtain ⟨g1, hg1⟩ := navigateCompletion_shown w B A _ 1 (Or.inr rfl) hshown
    (by omega) (by omega)
  rw [e1] at hg1
  have hshown1 : CandidateShown (w.navigateCompletion 1) B A
      (w.completionState_.completion_.getD (i + 1) []) := by
    rw [hg1]
    exact shown_of_fields _ B A _ rfl rfl rfl rfl
  have hidx1 : (w.navigateCompletion 1).completionState_.index_ =
      w.completionState_.index_ + 1 := by
    rw [hg1]
  have hcomp1 : (w.navigateCompletion 1).completionState_.completion_ =
      w.completionState_.completion_ := by
    rw [hg1]
  obtain ⟨g2, hg2⟩ := navigateCompletion_shown (w.navigateCompletion 1) B A _ (-1)
    (Or.inl rfl) hshown1 (by rw [hidx1]; omega) (by rw [hidx1, hcomp1]; omega)
  have e2 : ((w.navigateCompletion 1).completionState_.index_ + -1).toNat = i := by
    rw [hidx1]; omega
  rw [e2, hcomp1] at hg2
  have hshown2 : CandidateShown ((w.navigateCompletion 1).navigateCompletion (-1)) B A
      (w.completionState_.completion_.getD i []) := by
    rw [hg2]
    exact shown_of_fields _ B A _ rfl rfl rfl rfl
  obtain ⟨a1, a2, a3⟩ := shown_selection _ B A _ hshown
  obtain ⟨b1, b2, b3⟩ := shown_selection _ B A _ hshown2
  refine ⟨by rw [hg1], hcomp1, hshown2.1.trans hshown.1.symm,
    hshown2.2.1.trans hshown.2.1.symm, b1.trans a1.symm, b2.trans a2.symm,
    b3.trans a3.symm, ?_, ?_⟩
  · rw [hg2]
    show (w.navigateCompletion 1).completionState_.index_ + -1 = w.completionState_.index_
    rw [hidx1]
    omega
  · rw [hg2]
    exact hcomp1

theorem cycle_forward_backward_witness :
    (exampleCycling.navigateCompletion 1).text = "fop".toList ∧
    ((exampleCycling.navigateCompletion 1).navigateCompletion (-1)).text = "foo".toList ∧
    ((exampleCycling.navigateCompletion 1).navigateCompletion (-1)).selectedText =
      "o".toList ∧
    ((exampleCycling.navigateCompletion 1).navigateCompletion (-1)).completionState_.index_
      = 0 :=
  have h := cycle_forward_backward exampleCycling "fo".toList [] 0 (by decide) (by decide)
    (by decide)
  ⟨h.1, h.2.2.1, h.2.2.2.2.2.2.1, h.2.2.2.2.2.2.2.1⟩

end QCommandEditModel
